import Mathlib

/-!
Verification of the incremental, hash-verified library synchronisation engine
of `musctl.py` (command `generate-portable` and its helpers).  Paths and
strings are modelled as lists of characters; the external collaborators
(`rsync`, `ffmpeg`, `ffprobe`, `mkdir`, `os.walk`, `os.path`, `hashlib`) are
modelled from their documented contracts, while every function of the source
file itself is translated directly from `src/musctl.py`.
-/

namespace Musctl

/-- Paths and strings are modelled as lists of characters. -/
abbrev Str := List Char

/-- Convert a Lean string literal into the `Str` model. -/
def str (s : String) : Str := s.data

/-- `strStarts pre s` is true when `pre` is an initial segment of `s`
(the check Python performs when scanning for a substring occurrence). -/
def strStarts : Str → Str → Bool
  | [], _ => true
  | _ :: _, [] => false
  | a :: as, b :: bs => a = b && strStarts as bs

/-- `strHasInfix pat s`: `pat` occurs as a contiguous substring of `s`. -/
def strHasInfix (pat : Str) : Str → Bool
  | [] => strStarts pat []
  | s@(_ :: rest) => strStarts pat s || strHasInfix pat rest

/-- Python string comparison: lexicographic by code point, a proper initial
segment preceding any of its extensions.  This is the order used by
`list.sort()` on the relative-path strings. -/
def lexLe : Str → Str → Bool
  | [], _ => true
  | _ :: _, [] => false
  | a :: as, b :: bs => if a = b then lexLe as bs else decide (a < b)

/-- The ordering relation of Python `list.sort` on strings, as a `Prop`. -/
def pyLe (a b : Str) : Prop := lexLe a b = true

instance : DecidableRel pyLe := fun _ _ => instDecidableEqBool _ _

theorem lexLe_total (a b : Str) : lexLe a b = true ∨ lexLe b a = true := by
  induction a generalizing b with
  | nil => left; rfl
  | cons x xs ih =>
    cases b with
    | nil => right; rfl
    | cons y ys =>
      by_cases hxy : x = y
      · subst hxy
        simpa only [lexLe, if_pos rfl] using ih ys
      · rcases lt_trichotomy x y with h | h | h
        · left; simp [lexLe, hxy, h]
        · exact absurd h hxy
        · right; simp [lexLe, Ne.symm hxy, h]

theorem lexLe_trans {a b c : Str} (hab : lexLe a b = true)
    (hbc : lexLe b c = true) : lexLe a c = true := by
  induction a generalizing b c with
  | nil => rfl
  | cons x xs ih =>
    cases b with
    | nil => exact absurd hab (by simp [lexLe])
    | cons y ys =>
      cases c with
      | nil => exact absurd hbc (by simp [lexLe])
      | cons z zs =>
        by_cases hxy : x = y
        · subst hxy
          by_cases hyz : x = z
          · subst hyz
            simp only [lexLe, if_pos rfl] at hab hbc ⊢
            exact ih hab hbc
          · simp only [lexLe, if_pos rfl, if_neg hyz] at hab hbc ⊢
            exact hbc
        · by_cases hyz : y = z
          · subst hyz
            simp only [lexLe, if_neg hxy] at hab ⊢
            exact hab
          · by_cases hxz : x = z
            · subst hxz
              simp only [lexLe, if_neg hxy, if_neg (Ne.symm hxy),
                decide_eq_true_eq] at hab hbc
              exact absurd (lt_trans hab hbc) (lt_irrefl x)
            · simp only [lexLe, if_neg hxy, if_neg hyz, if_neg hxz,
                decide_eq_true_eq] at hab hbc ⊢
              exact lt_trans hab hbc

instance : IsTotal Str pyLe := ⟨lexLe_total⟩

instance : IsTrans Str pyLe := ⟨fun _ _ _ => lexLe_trans⟩

/-- The model of Python `list.sort()` on strings: a stable sort by `pyLe`
(for a total antisymmetric order the sorted output is unique, so any stable
sorting algorithm models `list.sort`). -/
def pySort (l : List Str) : List Str := List.insertionSort pyLe l

theorem pySort_sorted (l : List Str) : List.Sorted pyLe (pySort l) :=
  List.sorted_insertionSort pyLe l

theorem pySort_perm (l : List Str) : List.Perm (pySort l) l :=
  List.perm_insertionSort pyLe l

/-- Fuel-driven worker for Python `s.replace(pat, "")`: delete every
(leftmost, non-overlapping) occurrence of `pat` from `s`.  The fuel is an
upper bound on the length of `s`; each step either keeps one character or
consumes a whole nonempty occurrence of `pat`, so `s.length` fuel suffices.
(For `pat = []` Python would be the identity as well, because the
replacement string is empty.) -/
def delAllF : Nat → Str → Str → Str
  | 0, _, s => s
  | _ + 1, _, [] => []
  | fuel + 1, pat, c :: rest =>
    if pat ≠ [] ∧ strStarts pat (c :: rest) = true then
      delAllF fuel pat ((c :: rest).drop pat.length)
    else
      c :: delAllF fuel pat rest

/-- Python `s.replace(pat, "")` (no fuel argument). -/
def delAll (pat s : Str) : Str := delAllF s.length pat s

/-- Model of `MusCtl.__path_without_music_lib`:
`path.replace("{}/".format(music), "")` — note that Python `str.replace`
removes every occurrence of `music + "/"`, not only a leading one. -/
def path_without_music_lib (music path : Str) : Str :=
  delAll (music ++ str "/") path

/-- Model of `posixpath.join(a, b)` (the two-argument form used by the
source): an absolute `b` discards `a`; otherwise a separator is inserted
unless `a` is empty or already ends with one. -/
def pyJoin (a b : Str) : Str :=
  if b.head? = some '/' then b
  else if a = [] then b
  else if a.getLast? = some '/' then a ++ b
  else a ++ '/' :: b

/-- Model of `posixpath.basename`: the part of the path after its last
separator (the whole path when it has none). -/
def pyBasename (p : Str) : Str :=
  (p.reverse.takeWhile (fun c => c ≠ '/')).reverse

/-- Remove the trailing run of separators (Python `head.rstrip('/')`). -/
def rstripSlashes (p : Str) : Str :=
  (p.reverse.dropWhile (fun c => c = '/')).reverse

/-- Model of `posixpath.dirname`: everything up to and including the last
separator, with trailing separators then stripped unless the result
consists only of separators. -/
def pyDirname (p : Str) : Str :=
  let head := (p.reverse.dropWhile (fun c => c ≠ '/')).reverse
  if head = [] then head
  else if head.all (fun c => c = '/') then head
  else rstripSlashes head

/-- Model of `posixpath.splitext(p)[1]`: the extension including its dot.
It is nonempty exactly when the basename has a dot that is preceded (within
the basename) by some non-dot character; in particular a dotfile such as
`.flac` has no extension. -/
def splitextDotExt (p : Str) : Str :=
  let bn := pyBasename p
  let rest := bn.dropWhile (fun c => c = '.')
  if rest.contains '.' then
    '.' :: (rest.reverse.takeWhile (fun c => c ≠ '.')).reverse
  else []

/-- The extension as the source computes it: `os.path.splitext(name)[1][1:]`. -/
def extOf (p : Str) : Str := (splitextDotExt p).drop 1

/-- Model of `posixpath.splitext(p)[0]`: the path with its extension (dot
included) removed from the end. -/
def splitextRoot (p : Str) : Str :=
  p.take (p.length - (splitextDotExt p).length)

/-- ASCII whitespace recognised by Python `str.strip()` (the stripped
`ffprobe` output in the source only ever carries these). -/
def isPySpace (c : Char) : Bool :=
  c = ' ' || c = '\t' || c = '\n' || c = '\r' || c = '\x0b' || c = '\x0c'

/-- Model of Python `s.strip()`. -/
def pyStrip (s : Str) : Str :=
  ((s.dropWhile isPySpace).reverse.dropWhile isPySpace).reverse

/-- `MusCtl.HASHER_CHUNK_SIZE`. -/
def HASHER_CHUNK_SIZE : Nat := 4096

/-- `MusCtl.HASH_FIELD`. -/
def HASH_FIELD : Str := str "OriginalHash"

/-- `MusCtl.ERR_RSYNC`. -/
def ERR_RSYNC : Nat := 1

/-- `MusCtl.ERR_FILESYSTEM`. -/
def ERR_FILESYSTEM : Nat := 2

/-- `MusCtl.ERR_FFMPEG`. -/
def ERR_FFMPEG : Nat := 3

/-- Fuel-driven worker for `iter(lambda: f.read(n), b"")`: split a byte
stream into successive chunks of `n` bytes (the final chunk may be
shorter).  `f.read(0)` returns `b""` immediately, so chunk size `0` yields
no chunks at all, exactly as in Python.  Fuel `l.length` suffices because
every step with a nonempty stream and positive `n` consumes at least one
byte. -/
def chunksF : Nat → Nat → List Nat → List (List Nat)
  | 0, _, _ => []
  | _ + 1, _, [] => []
  | fuel + 1, n, l@(_ :: _) =>
    if n = 0 then [] else l.take n :: chunksF fuel n (l.drop n)

/-- Split a byte stream into chunks of `n` bytes. -/
def chunks (n : Nat) (l : List Nat) : List (List Nat) := chunksF l.length n l

/-- One lowercase hexadecimal digit, as Python renders nibbles. -/
def hexDigit : Nat → Char
  | 0 => '0' | 1 => '1' | 2 => '2' | 3 => '3' | 4 => '4'
  | 5 => '5' | 6 => '6' | 7 => '7' | 8 => '8' | 9 => '9'
  | 10 => 'a' | 11 => 'b' | 12 => 'c' | 13 => 'd' | 14 => 'e'
  | _ => 'f'

/-- Render one digest byte as two lowercase hexadecimal characters (the
`% 16` encodes that digest entries are bytes). -/
def hexPair (b : Nat) : Str := [hexDigit (b / 16 % 16), hexDigit (b % 16)]

/-- Model of `hashlib`'s `hexdigest()` applied to a raw digest: each digest
byte rendered as two lowercase hexadecimal characters. -/
def hexdigest (raw : List Nat) : Str := raw.flatMap hexPair

/-- A destination-tree file: its path is the key in `DState.files` and its
byte content is the value (embedded metadata is read from the bytes by the
probe model). -/
structure DState where
  files : List (Str × List Nat)
  dirs : List Str
  deriving DecidableEq, Repr

/-- The static environment of one `generate-portable` run: the configured
roots and sets, the (read-only) source tree, and the contracts of the
external collaborators.  `readFile` gives the bytes of a source-filesystem
path; `rawDigest` is the cryptographic hash function (`hashlib.sha256`)
from absorbed byte stream to digest bytes; `transcodeFn` is what the
external transcoder writes given input bytes and the metadata value to
embed; `probeFn` is what the external metadata probe reports for a file
with the given bytes (exit code, stdout). -/
structure Env where
  music : Str
  portable : Str
  convertExts : List Str
  excludeDirs : List Str
  readFile : Str → List Nat
  rawDigest : List Nat → List Nat
  transcodeFn : List Nat → Str → List Nat
  probeFn : List Nat → Nat × Str

/-- Model of `MusCtl.__get_file_hash`, generalised over the chunk size:
the file is read in chunks which are fed in order to the hasher
(`hasher.update` absorbs bytes, so the digest is `rawDigest` of the
concatenation of the chunks), and the digest is rendered in lowercase
hexadecimal. -/
def get_file_hash_with (n : Nat) (env : Env) (filename : Str) : Str :=
  hexdigest (env.rawDigest ((chunks n (env.readFile filename)).foldl
    (fun acc chunk => acc ++ chunk) []))

/-- Model of `MusCtl.__get_file_hash` (chunk size `HASHER_CHUNK_SIZE`). -/
def get_file_hash (env : Env) (filename : Str) : Str :=
  get_file_hash_with HASHER_CHUNK_SIZE env filename

/-- First-match association-list lookup (leftmost binding wins). -/
def lookupA {β : Type} : List (Str × β) → Str → Option β
  | [], _ => none
  | (k1, v) :: rest, k => if k1 = k then some v else lookupA rest k

/-- Overwrite the first binding of `k` in place, or append a new binding:
the model of writing a file at path `k`. -/
def setA {β : Type} : List (Str × β) → Str → β → List (Str × β)
  | [], k, v => [(k, v)]
  | (k1, v1) :: rest, k, v =>
    if k1 = k then (k, v) :: rest else (k1, v1) :: setA rest k v

/-- `os.path.exists` on the destination tree (artifact files). -/
def pathExists (st : DState) (p : Str) : Bool := (lookupA st.files p).isSome

/-- An external process invocation observed during a run. -/
inductive Call where
  | rsync (rels : List Str) (dest : Str)
  | mkdir (dir : Str)
  | ffprobe (track : Str)
  | ffmpeg (intrack outtrack : Str)
  deriving DecidableEq, Repr

/-- Is the call an invocation of the external transcoder? -/
def isTranscodeCall : Call → Bool
  | .ffmpeg _ _ => true
  | _ => false

/-- Is the call an invocation of the external mirroring tool? -/
def isRsyncCall : Call → Bool
  | .rsync _ _ => true
  | _ => false

/-- A fatal `self.fail(msg, ret)`.  Modelled from the spec:
`raehutils.RaehBaseClass.fail` is not under `src/`; per the spec every
fatal condition aborts the entire run immediately with the given message
and exit code. -/
structure Failure where
  msg : Str
  code : Nat
  deriving DecidableEq, Repr

/-- Modelled from the spec: the external metadata probe (`ffprobe` on an
artifact).  Probing a missing file exits nonzero; otherwise the probe
reports the value of the named field from the file's bytes (exit code and
stdout given by the environment's probe contract). -/
def probeSt (env : Env) (st : DState) (track : Str) : Nat × Str :=
  match lookupA st.files track with
  | none => (1, [])
  | some bs => env.probeFn bs

/-- Model of `MusCtl.__get_track_stored_hash`: run the probe; a nonzero
exit is fatal (`ERR_FFMPEG`); a whitespace-only value is fatal
(`ERR_FILESYSTEM`); otherwise return the stripped stdout.  The second
component lists the external processes invoked. -/
def get_track_stored_hash (env : Env) (st : DState) (track : Str) :
    Except Failure Str × List Call :=
  let rc := (probeSt env st track).1
  let stdout := (probeSt env st track).2
  if rc ≠ 0 then
    (.error ⟨str "error while retrieving stored hash: " ++ track, ERR_FFMPEG⟩,
      [Call.ffprobe track])
  else
    let retrieved := pyStrip stdout
    if retrieved = [] then
      (.error ⟨str "converted track has no stored hash: " ++ track,
        ERR_FILESYSTEM⟩, [Call.ffprobe track])
    else (.ok retrieved, [Call.ffprobe track])

/-- Modelled from the spec: the external transcoder invocation
(`ffmpeg -n -i intrack -vn -q:a 5 -metadata HASH_FIELD=tagval outtrack`).
With `-n` it refuses to overwrite an existing output (nonzero exit);
otherwise it writes the transcoded bytes at `outtrack`, with `tagval`
embedded as the value of the `HASH_FIELD` metadata field, and exits 0. -/
def runFfmpeg (env : Env) (st : DState) (intrack outtrack tagval : Str) :
    Nat × DState :=
  if pathExists st outtrack then (1, st)
  else (0, { st with
    files := setA st.files outtrack (env.transcodeFn (env.readFile intrack) tagval) })

/-- The planned output path of `MusCtl.__ffmpeg_convert` (line 286): the
basename of the input with its extension replaced by `.ogg`, joined to the
output directory. -/
def outtrackOf (intrack outdir : Str) : Str :=
  pyJoin outdir (splitextRoot (pyBasename intrack) ++ str ".ogg")

/-- Model of `MusCtl.__ffmpeg_convert`: compute the source digest; if the
planned output exists, compare it with the stored digest (equal → return 0,
different → fatal conflict, unreadable → the stored-hash failure
propagates); otherwise invoke the transcoder embedding the digest and
return its exit code.  Results: gate outcome, resulting destination state,
external processes invoked. -/
def ffmpeg_convert (env : Env) (st : DState) (intrack outdir : Str) :
    Except Failure Nat × DState × List Call :=
  let outtrack := outtrackOf intrack outdir
  let intrack_hash := get_file_hash env intrack
  if pathExists st outtrack then
    match get_track_stored_hash env st outtrack with
    | (.error e, cs) => (.error e, st, cs)
    | (.ok stored, cs) =>
      if stored = intrack_hash then (.ok 0, st, cs)
      else
        (.error ⟨str "outtrack's stored hash does not match intrack: " ++ outtrack,
          ERR_FILESYSTEM⟩, st, cs)
  else
    let res := runFfmpeg env st intrack outtrack intrack_hash
    (.ok res.1, res.2, [Call.ffmpeg intrack outtrack])

mutual
/-- A directory of the source tree: its subdirectories and its file names. -/
inductive FTree where
  | node : FForest → List Str → FTree
/-- A list of named subdirectories. -/
inductive FForest where
  | fnil : FForest
  | fcons : Str → FTree → FForest → FForest
end

mutual
/-- Modelled from the spec: `os.walk(root, topdown=True)` combined with the
in-place exclusion filter of `cmd_generate_portable` (line 197): every
visited file as (joined path, file name); the files of a directory come
first, then each kept subdirectory depth-first; excluded directory names
are pruned before descent. -/
def walkTree (ex : List Str) (root : Str) : FTree → List (Str × Str)
  | .node dirs files =>
    files.map (fun fn => (pyJoin root fn, fn)) ++ walkForest ex root dirs

/-- Walk the subdirectories of a directory, pruning excluded names. -/
def walkForest (ex : List Str) (root : Str) : FForest → List (Str × Str)
  | .fnil => []
  | .fcons name t rest =>
    (if name ∈ ex then [] else walkTree ex (pyJoin root name) t)
      ++ walkForest ex root rest
end

/-- The classification loop of `cmd_generate_portable` (lines 198-208):
append each walked file's stripped path to the convert list when the
extension of its name is in the configured set, else to the regular
list. -/
def classify (env : Env) (pairs : List (Str × Str)) : List Str × List Str :=
  pairs.foldl
    (fun acc pr =>
      if extOf pr.2 ∈ env.convertExts then
        (acc.1 ++ [path_without_music_lib env.music pr.1], acc.2)
      else
        (acc.1, acc.2 ++ [path_without_music_lib env.music pr.1]))
    ([], [])

/-- The observable outcome of a run: the final destination state, the fatal
failure if one occurred, the external processes invoked in order, and the
`converting track (i/n): t` log lines (as `(i, n, t)`). -/
structure RunResult where
  st : DState
  err : Option Failure
  calls : List Call
  logs : List (Nat × Nat × Str)
  deriving DecidableEq, Repr

/-- The conversion loop of `cmd_generate_portable` (lines 233-250) over the
enumerated sorted track list: log the track, ensure its output directory
exists (`mkdir -p`: modelled from the spec as idempotent and always
succeeding), run the transcode gate, and abort the run on a gate failure
or a nonzero transcoder exit. -/
def convertLoop (env : Env) (total : Nat) :
    List (Nat × Str) → DState → RunResult
  | [], st => ⟨st, none, [], []⟩
  | (i, track) :: rest, st =>
    let infile := pyJoin env.music track
    let outdir := pyDirname (pyJoin env.portable track)
    let st1 : DState :=
      { st with dirs := if outdir ∈ st.dirs then st.dirs else st.dirs ++ [outdir] }
    match ffmpeg_convert env st1 infile outdir with
    | (.error e, st2, cs) =>
      ⟨st2, some e, Call.mkdir outdir :: cs, [(i + 1, total, track)]⟩
    | (.ok rc, st2, cs) =>
      if rc ≠ 0 then
        ⟨st2, some ⟨str "an ffmpeg command failed", ERR_FFMPEG⟩,
          Call.mkdir outdir :: cs, [(i + 1, total, track)]⟩
      else
        let r := convertLoop env total rest st2
        ⟨r.st, r.err, Call.mkdir outdir :: cs ++ r.calls,
          (i + 1, total, track) :: r.logs⟩

/-- Modelled from the spec: the effect of the batched `rsync -aR` call run
with the source root as working directory — each listed relative path is
mirrored byte-identically to the same relative path under the destination
root; exit code 0. -/
def applyRsync (env : Env) (st : DState) (rels : List Str) : DState :=
  { st with
    files := rels.foldl
      (fun fs rel => setA fs (pyJoin env.portable rel)
        (env.readFile (pyJoin env.music rel))) st.files }

/-- Model of `MusCtl.cmd_generate_portable` (lines 175-252): walk the source
tree classifying every file, sort both lists, mirror the regular files in
one `rsync` batch when there are any (an empty list skips the tool), then
run the conversion loop over the sorted transcode list. -/
def cmd_generate_portable (env : Env) (tree : FTree) (st : DState) : RunResult :=
  let pairs := walkTree env.excludeDirs env.music tree
  let lists := classify env pairs
  let tracks_needing_converting := pySort lists.1
  let regular_files := pySort lists.2
  let rsyncOut :=
    if regular_files.length = 0 then (st, ([] : List Call))
    else (applyRsync env st regular_files,
      [Call.rsync regular_files env.portable])
  let loopOut := convertLoop env tracks_needing_converting.length
    tracks_needing_converting.enum rsyncOut.1
  ⟨loopOut.st, loopOut.err, rsyncOut.2 ++ loopOut.calls, loopOut.logs⟩

/-- The filesystem paths an external call writes to: `ffprobe` only reads;
`rsync -aR` writes each listed relative path under its destination
argument; `mkdir -p` creates its directory; the transcoder writes its
output path. -/
def writeTargets : Call → List Str
  | .rsync rels dest => rels.map (fun rel => pyJoin dest rel)
  | .mkdir d => [d]
  | .ffprobe _ => []
  | .ffmpeg _ o => [o]

mutual
/-- All files of a tree together with the directory-name path leading to
them, with no exclusion applied: the reference enumeration against which
the scanner claims are stated. -/
def entriesT : FTree → List (List Str × Str)
  | .node dirs files => files.map (fun f => (([] : List Str), f)) ++ entriesF dirs

/-- Entries of a forest of subdirectories. -/
def entriesF : FForest → List (List Str × Str)
  | .fnil => []
  | .fcons name t rest =>
    (entriesT t).map (fun e => (name :: e.1, e.2)) ++ entriesF rest
end

/-- A plausible file or directory name: nonempty and free of separators. -/
def goodName (s : Str) : Bool := s ≠ [] && s.all (fun c => c ≠ '/')

/-- The names of a forest's immediate subdirectories. -/
def forestNames : FForest → List Str
  | .fnil => []
  | .fcons name _ rest => name :: forestNames rest

mutual
/-- Well-formedness of a source tree: every name is plausible and the file
names and directory names within one directory are each distinct. -/
def wfT : FTree → Bool
  | .node dirs files =>
    files.all goodName && decide files.Nodup &&
    (forestNames dirs).all goodName && decide (forestNames dirs).Nodup &&
    wfF dirs

/-- Well-formedness of every tree of a forest. -/
def wfF : FForest → Bool
  | .fnil => true
  | .fcons _ t rest => wfT t && wfF rest
end

/-- Join path segments with separators. -/
def joinSegs : List Str → Str
  | [] => []
  | [s] => s
  | s :: rest => s ++ '/' :: joinSegs rest

/-- The relative path of an entry: its directory segments, then its name. -/
def entryRel (e : List Str × Str) : Str := joinSegs (e.1 ++ [e.2])

/-- The claim's reading of "extension": the text after the last dot of a
name, empty when the name has no dot. -/
def afterLastDot (s : Str) : Str :=
  if s.contains '.' then (s.reverse.takeWhile (fun c => c ≠ '.')).reverse
  else []

/-- A concrete environment used to exercise the model on closed inputs:
the digest of a byte stream is its length, the transcoder stores the
metadata value as character codes, and the probe decodes them back. -/
def envW : Env :=
  { music := str "/m", portable := str "/p",
    convertExts := [str "flac"], excludeDirs := [str "etc"],
    readFile := fun p => if p = str "/m/b.flac" then [1, 2] else [7],
    rawDigest := fun bs => [bs.length],
    transcodeFn := fun _ t => t.map Char.toNat,
    probeFn := fun bs => (0, bs.map Char.ofNat) }

/-- A destination state holding an artifact `/p/b.ogg` whose stored tag
decodes to `02`, the digest of the current `/m/b.flac` under `envW`. -/
def stW : DState := ⟨[(str "/p/b.ogg", [48, 50])], []⟩

/-- A destination state holding an artifact `/p/b.ogg` whose stored tag
decodes to `ff`, which is not the digest of the current `/m/b.flac` under
`envW`. -/
def stConflict : DState := ⟨[(str "/p/b.ogg", [102, 102])], []⟩

/-- A destination state holding an artifact `/p/b.ogg` whose bytes make
the metadata probe of `envProbeFail` exit nonzero. -/
def stCorrupt : DState := ⟨[(str "/p/b.ogg", [9])], []⟩

/-- Like `envW` but with a metadata probe that fails (nonzero exit) on the
byte content `[9]`. -/
def envProbeFail : Env :=
  { envW with probeFn := fun bs => if bs = [9] then (1, []) else (0, bs.map Char.ofNat) }

/-- Lowercase hexadecimal characters. -/
def isHexLowerChar (c : Char) : Bool := (str "0123456789abcdef").contains c

/-- A source tree holding a single transcodable file, so the copy-list is
empty. -/
def treeOnlyFlac : FTree := .node .fnil [str "b.flac"]

/-- A source tree holding one plain file and one transcodable file. -/
def treeBoth : FTree := .node .fnil [str "a.ogg", str "b.flac"]

/-- A source tree holding a single dotfile named `.flac`. -/
def treeDot : FTree := .node .fnil [str ".flac"]

/-- An environment whose source root carries a trailing separator. -/
def envSlash : Env :=
  { envW with
    music := str "/m/"
    portable := str "/p"
    readFile := fun _ => []
    rawDigest := fun _ => [0] }

/-- Join a list of path segments onto a root the way `os.walk` builds its
directory paths: a left fold of `posixpath.join`. -/
def joinAll (root : Str) (segs : List Str) : Str := segs.foldl pyJoin root

/-- An entry survives the top-down exclusion filter when none of the
directory names on its path is excluded. -/
def keptEntry (ex : List Str) (e : List Str × Str) : Bool :=
  e.1.all (fun d => decide (d ∉ ex))

/-- The contract of the external transcoder and probe together (the spec's
tag round-trip property): probing a transcoded file reports exit 0 and the
embedded metadata value. -/
def ProbeRoundTrip (env : Env) : Prop :=
  ∀ bs t, env.probeFn (env.transcodeFn bs t) = (0, t)

/-- The digest of the modelled hash function is never empty
(`hashlib.sha256` digests are 32 bytes). -/
def DigestNonempty (env : Env) : Prop :=
  ∀ bs, env.rawDigest bs ≠ []

/-- The number of occurrences of `x` in `l` ("appears exactly once" is
`countOcc x l = 1`). -/
def countOcc {β : Type} [DecidableEq β] (x : β) (l : List β) : Nat :=
  (l.filter (fun y => decide (y = x))).length

/-- The artifact of `track` is present and provably current: it exists,
its probe succeeds, and the stripped probed value is exactly the digest of
the current source file (and nonempty).  This is the state in which the
transcode gate skips. -/
def GateCurrent (env : Env) (st : DState) (track : Str) : Prop :=
  ∃ bs, lookupA st.files (outtrackOf (pyJoin env.music track)
      (pyDirname (pyJoin env.portable track))) = some bs ∧
    (env.probeFn bs).1 = 0 ∧
    pyStrip (env.probeFn bs).2 = get_file_hash env (pyJoin env.music track) ∧
    pyStrip (env.probeFn bs).2 ≠ []

theorem pathExists_of_lookupA {st : DState} {k : Str} {v : List Nat}
    (h : lookupA st.files k = some v) : pathExists st k = true := by
  simp [pathExists, h]

theorem get_track_stored_hash_calls (env : Env) (st : DState) (track : Str) :
    (get_track_stored_hash env st track).2 = [Call.ffprobe track] := by
  simp only [get_track_stored_hash]
  split
  · simp
  · split <;> simp

theorem get_track_stored_hash_ok {env : Env} {st : DState} {track : Str}
    {bs : List Nat} {out : Str}
    (hbs : lookupA st.files track = some bs)
    (hp : env.probeFn bs = (0, out)) (hne : pyStrip out ≠ []) :
    get_track_stored_hash env st track =
      (.ok (pyStrip out), [Call.ffprobe track]) := by
  simp only [get_track_stored_hash, probeSt, hbs, hp]
  simp [hne]

theorem get_track_stored_hash_rcErr {env : Env} {st : DState} {track : Str}
    {bs : List Nat}
    (hbs : lookupA st.files track = some bs)
    (hrc : (env.probeFn bs).1 ≠ 0) :
    get_track_stored_hash env st track =
      (.error ⟨str "error while retrieving stored hash: " ++ track, ERR_FFMPEG⟩,
        [Call.ffprobe track]) := by
  simp only [get_track_stored_hash, probeSt, hbs]
  simp [hrc]

theorem get_track_stored_hash_emptyErr {env : Env} {st : DState} {track : Str}
    {bs : List Nat}
    (hbs : lookupA st.files track = some bs)
    (hrc : (env.probeFn bs).1 = 0)
    (he : pyStrip (env.probeFn bs).2 = []) :
    get_track_stored_hash env st track =
      (.error ⟨str "converted track has no stored hash: " ++ track, ERR_FILESYSTEM⟩,
        [Call.ffprobe track]) := by
  simp only [get_track_stored_hash, probeSt, hbs]
  simp [hrc, he]

theorem ffmpeg_convert_skip {env : Env} {st : DState} {intrack outdir : Str}
    {bs : List Nat} {out : Str}
    (hbs : lookupA st.files (outtrackOf intrack outdir) = some bs)
    (hp : env.probeFn bs = (0, out)) (hne : pyStrip out ≠ [])
    (hmatch : pyStrip out = get_file_hash env intrack) :
    ffmpeg_convert env st intrack outdir =
      (.ok 0, st, [Call.ffprobe (outtrackOf intrack outdir)]) := by
  simp only [ffmpeg_convert, pathExists_of_lookupA hbs, if_true,
    get_track_stored_hash_ok hbs hp hne, hmatch]
  try simp

theorem ffmpeg_convert_conflict {env : Env} {st : DState} {intrack outdir : Str}
    {bs : List Nat} {out : Str}
    (hbs : lookupA st.files (outtrackOf intrack outdir) = some bs)
    (hp : env.probeFn bs = (0, out)) (hne : pyStrip out ≠ [])
    (hdiff : pyStrip out ≠ get_file_hash env intrack) :
    ffmpeg_convert env st intrack outdir =
      (.error ⟨str "outtrack's stored hash does not match intrack: " ++
          outtrackOf intrack outdir, ERR_FILESYSTEM⟩, st,
        [Call.ffprobe (outtrackOf intrack outdir)]) := by
  simp only [ffmpeg_convert, pathExists_of_lookupA hbs, if_true,
    get_track_stored_hash_ok hbs hp hne]
  simp [hdiff]

theorem ffmpeg_convert_error_of {env : Env} {st : DState} {intrack outdir : Str}
    {bs : List Nat} {e : Failure}
    (hbs : lookupA st.files (outtrackOf intrack outdir) = some bs)
    (hget : get_track_stored_hash env st (outtrackOf intrack outdir) =
      (.error e, [Call.ffprobe (outtrackOf intrack outdir)])) :
    ffmpeg_convert env st intrack outdir =
      (.error e, st, [Call.ffprobe (outtrackOf intrack outdir)]) := by
  simp only [ffmpeg_convert, pathExists_of_lookupA hbs, if_true, hget]

/-- C1: for an entry whose artifact exists with a stored tag equal to the
current source digest, `__ffmpeg_convert` returns success (0), leaves the
destination state untouched, and the only external process invoked is the
metadata probe — in particular the external transcoder is not invoked
(amended: the original claim's "no external process is run" fails, because
reading the stored tag runs the probe). -/
theorem C1_theorem {env : Env} {st : DState} {intrack outdir : Str}
    {bs : List Nat} {out : Str}
    (hbs : lookupA st.files (outtrackOf intrack outdir) = some bs)
    (hp : env.probeFn bs = (0, out)) (hne : pyStrip out ≠ [])
    (hmatch : pyStrip out = get_file_hash env intrack) :
    ffmpeg_convert env st intrack outdir =
      (.ok 0, st, [Call.ffprobe (outtrackOf intrack outdir)]) ∧
    ∀ c ∈ (ffmpeg_convert env st intrack outdir).2.2,
      isTranscodeCall c = false := by
  have h := ffmpeg_convert_skip hbs hp hne hmatch
  refine ⟨h, ?_⟩
  rw [h]
  intro c hc
  simp only [List.mem_singleton] at hc
  subst hc
  rfl

/-- C1 (witness): a concrete up-to-date artifact on which the skip theorem
applies. -/
theorem C1_witness :
    lookupA stW.files (outtrackOf (str "/m/b.flac") (str "/p")) = some [48, 50] ∧
    envW.probeFn [48, 50] = (0, str "02") ∧
    pyStrip (str "02") ≠ [] ∧
    pyStrip (str "02") = get_file_hash envW (str "/m/b.flac") ∧
    (ffmpeg_convert envW stW (str "/m/b.flac") (str "/p") =
      (.ok 0, stW, [Call.ffprobe (outtrackOf (str "/m/b.flac") (str "/p"))]) ∧
     ∀ c ∈ (ffmpeg_convert envW stW (str "/m/b.flac") (str "/p")).2.2,
       isTranscodeCall c = false) :=
  ⟨by decide, by decide, by decide, by decide,
    @C1_theorem envW stW (str "/m/b.flac") (str "/p") [48, 50] (str "02")
      (by decide) (by decide) (by decide) (by decide)⟩

/-- C1 (counterexample): in the skip case the gate returns success, yet the
list of external processes invoked for the entry is not empty — the
metadata probe is an external process run for that entry, refuting "no
external process is run". -/
theorem C1_counterexample :
    ffmpeg_convert envW stW (str "/m/b.flac") (str "/p") =
      (.ok 0, stW, [Call.ffprobe (str "/p/b.ogg")]) ∧
    (ffmpeg_convert envW stW (str "/m/b.flac") (str "/p")).2.2 ≠ [] :=
  ⟨rfl, by decide⟩

/-- C2: for a transcode-list entry whose artifact exists with a readable
stored tag differing from the current source digest, the conversion loop
halts at that entry with the conflict failure naming the artifact path
(`ERR_FILESYSTEM`), the destination file map is unchanged, the remaining
entries are not processed, and the external transcoder is not invoked. -/
theorem C2_theorem (env : Env) (total i : Nat) (track : Str)
    (rest : List (Nat × Str)) (st : DState) (bs : List Nat) (out : Str)
    (hbs : lookupA st.files (outtrackOf (pyJoin env.music track)
      (pyDirname (pyJoin env.portable track))) = some bs)
    (hp : env.probeFn bs = (0, out)) (hne : pyStrip out ≠ [])
    (hdiff : pyStrip out ≠ get_file_hash env (pyJoin env.music track)) :
    convertLoop env total ((i, track) :: rest) st =
      ⟨{ st with dirs := if pyDirname (pyJoin env.portable track) ∈ st.dirs
           then st.dirs
           else st.dirs ++ [pyDirname (pyJoin env.portable track)] },
        some ⟨str "outtrack's stored hash does not match intrack: " ++
          outtrackOf (pyJoin env.music track) (pyDirname (pyJoin env.portable track)),
          ERR_FILESYSTEM⟩,
        [Call.mkdir (pyDirname (pyJoin env.portable track)),
         Call.ffprobe (outtrackOf (pyJoin env.music track)
           (pyDirname (pyJoin env.portable track)))],
        [(i + 1, total, track)]⟩ ∧
    (convertLoop env total ((i, track) :: rest) st).st.files = st.files := by
  have hg := @ffmpeg_convert_conflict env
    { st with dirs := if pyDirname (pyJoin env.portable track) ∈ st.dirs
      then st.dirs else st.dirs ++ [pyDirname (pyJoin env.portable track)] }
    (pyJoin env.music track) (pyDirname (pyJoin env.portable track)) bs out
    hbs hp hne hdiff
  constructor
  · simp only [convertLoop, hg]
  · simp only [convertLoop, hg]

/-- C2 (witness): a concrete artifact with a mismatched stored tag on which
the conflict theorem applies. -/
theorem C2_witness :
    lookupA stConflict.files (outtrackOf (pyJoin envW.music (str "b.flac"))
      (pyDirname (pyJoin envW.portable (str "b.flac")))) = some [102, 102] ∧
    envW.probeFn [102, 102] = (0, str "ff") ∧
    pyStrip (str "ff") ≠ [] ∧
    pyStrip (str "ff") ≠ get_file_hash envW (pyJoin envW.music (str "b.flac")) ∧
    (convertLoop envW 1 [(0, str "b.flac")] stConflict =
      ⟨{ stConflict with dirs := if pyDirname (pyJoin envW.portable (str "b.flac")) ∈ stConflict.dirs
           then stConflict.dirs
           else stConflict.dirs ++ [pyDirname (pyJoin envW.portable (str "b.flac"))] },
        some ⟨str "outtrack's stored hash does not match intrack: " ++
          outtrackOf (pyJoin envW.music (str "b.flac"))
            (pyDirname (pyJoin envW.portable (str "b.flac"))),
          ERR_FILESYSTEM⟩,
        [Call.mkdir (pyDirname (pyJoin envW.portable (str "b.flac"))),
         Call.ffprobe (outtrackOf (pyJoin envW.music (str "b.flac"))
           (pyDirname (pyJoin envW.portable (str "b.flac"))))],
        [(0 + 1, 1, str "b.flac")]⟩ ∧
     (convertLoop envW 1 [(0, str "b.flac")] stConflict).st.files = stConflict.files) :=
  ⟨by decide, by decide, by decide, by decide,
    C2_theorem envW 1 0 (str "b.flac") [] stConflict [102, 102] (str "ff")
      (by decide) (by decide) (by decide) (by decide)⟩

/-- C3: for an existing artifact whose metadata probe exits nonzero or
yields a whitespace-only value, `__get_track_stored_hash` is a fatal error
(`ERR_FFMPEG` resp. `ERR_FILESYSTEM`), and `__ffmpeg_convert` propagates
exactly that failure with the destination state untouched and only the
probe invoked — the case is never treated as "no prior artifact" and never
reaches the transcoder. -/
theorem C3_theorem {env : Env} {st : DState} {intrack outdir : Str}
    {bs : List Nat}
    (hbs : lookupA st.files (outtrackOf intrack outdir) = some bs)
    (hbad : (env.probeFn bs).1 ≠ 0 ∨ pyStrip (env.probeFn bs).2 = []) :
    ∃ e : Failure,
      get_track_stored_hash env st (outtrackOf intrack outdir) =
        (.error e, [Call.ffprobe (outtrackOf intrack outdir)]) ∧
      (e.code = ERR_FFMPEG ∨ e.code = ERR_FILESYSTEM) ∧
      ffmpeg_convert env st intrack outdir =
        (.error e, st, [Call.ffprobe (outtrackOf intrack outdir)]) := by
  rcases hbad with hrc | hempty
  · refine ⟨⟨str "error while retrieving stored hash: " ++ outtrackOf intrack outdir,
      ERR_FFMPEG⟩, ?_, Or.inl rfl, ?_⟩
    · exact get_track_stored_hash_rcErr hbs hrc
    · exact ffmpeg_convert_error_of hbs (get_track_stored_hash_rcErr hbs hrc)
  · by_cases hrc : (env.probeFn bs).1 = 0
    · refine ⟨⟨str "converted track has no stored hash: " ++ outtrackOf intrack outdir,
        ERR_FILESYSTEM⟩, ?_, Or.inr rfl, ?_⟩
      · exact get_track_stored_hash_emptyErr hbs hrc hempty
      · exact ffmpeg_convert_error_of hbs (get_track_stored_hash_emptyErr hbs hrc hempty)
    · refine ⟨⟨str "error while retrieving stored hash: " ++ outtrackOf intrack outdir,
        ERR_FFMPEG⟩, ?_, Or.inl rfl, ?_⟩
      · exact get_track_stored_hash_rcErr hbs hrc
      · exact ffmpeg_convert_error_of hbs (get_track_stored_hash_rcErr hbs hrc)

/-- C3 (witness): a concrete existing artifact whose probe exits nonzero,
on which the unreadable-tag theorem applies. -/
theorem C3_witness :
    lookupA stCorrupt.files (outtrackOf (str "/m/b.flac") (str "/p")) = some [9] ∧
    ((envProbeFail.probeFn [9]).1 ≠ 0 ∨ pyStrip (envProbeFail.probeFn [9]).2 = []) ∧
    (∃ e : Failure,
      get_track_stored_hash envProbeFail stCorrupt (outtrackOf (str "/m/b.flac") (str "/p")) =
        (.error e, [Call.ffprobe (outtrackOf (str "/m/b.flac") (str "/p"))]) ∧
      (e.code = ERR_FFMPEG ∨ e.code = ERR_FILESYSTEM) ∧
      ffmpeg_convert envProbeFail stCorrupt (str "/m/b.flac") (str "/p") =
        (.error e, stCorrupt, [Call.ffprobe (outtrackOf (str "/m/b.flac") (str "/p"))])) :=
  ⟨by decide, by decide,
    @C3_theorem envProbeFail stCorrupt (str "/m/b.flac") (str "/p") [9]
      (by decide) (by decide)⟩

theorem strStarts_append_self (pat t : Str) : strStarts pat (pat ++ t) = true := by
  induction pat with
  | nil => rfl
  | cons p ps ih => simp [strStarts, ih]

theorem delAllF_congr (pat : Str) :
    ∀ f g s, s.length ≤ f → s.length ≤ g → delAllF f pat s = delAllF g pat s := by
  intro f
  induction f with
  | zero =>
    intro g s hf _
    have hs : s = [] := List.eq_nil_of_length_eq_zero (Nat.le_zero.mp hf)
    subst hs
    cases g <;> rfl
  | succ f ih =>
    intro g s hf hg
    cases s with
    | nil => cases g <;> rfl
    | cons c rest =>
      cases g with
      | zero => simp at hg
      | succ g1 =>
        simp only [delAllF]
        by_cases hcond : pat ≠ [] ∧ strStarts pat (c :: rest) = true
        · rw [if_pos hcond, if_pos hcond]
          apply ih
          · have hplen : 1 ≤ pat.length := by
              cases pat with
              | nil => exact absurd rfl hcond.1
              | cons _ _ => simp
            simp only [List.length_drop, List.length_cons] at *
            omega
          · have hplen : 1 ≤ pat.length := by
              cases pat with
              | nil => exact absurd rfl hcond.1
              | cons _ _ => simp
            simp only [List.length_drop, List.length_cons] at *
            omega
        · rw [if_neg hcond, if_neg hcond]
          have h1 : rest.length ≤ f := by
            simp only [List.length_cons] at hf; omega
          have h2 : rest.length ≤ g1 := by
            simp only [List.length_cons] at hg; omega
          rw [ih g1 rest h1 h2]

theorem delAll_cons_of_not_starts {pat : Str} {c : Char} {rest : Str}
    (h : strStarts pat (c :: rest) = false) :
    delAll pat (c :: rest) = c :: delAll pat rest := by
  unfold delAll
  simp only [List.length_cons, delAllF]
  rw [if_neg (by simp [h])]

theorem delAll_append_self {pat : Str} (t : Str) (hp : pat ≠ []) :
    delAll pat (pat ++ t) = delAll pat t := by
  obtain ⟨p, ps, rfl⟩ : ∃ p ps, pat = p :: ps := by
    cases pat with
    | nil => exact absurd rfl hp
    | cons p ps => exact ⟨p, ps, rfl⟩
  show delAllF ((p :: ps ++ t).length) (p :: ps) (p :: (ps ++ t)) = _
  simp only [List.cons_append, List.length_cons, delAllF]
  rw [if_pos ⟨hp, strStarts_append_self (p :: ps) t⟩]
  have hdrop : List.drop (ps.length + 1) (p :: (ps ++ t)) = t := by
    simp only [List.drop_succ_cons]
    exact List.drop_left ps t
  rw [hdrop]
  exact delAllF_congr (p :: ps) _ _ t (by simp) (le_refl _)

theorem delAll_of_not_infix {pat s : Str} (h : strHasInfix pat s = false) :
    delAll pat s = s := by
  induction s with
  | nil => rfl
  | cons c rest ih =>
    have h2 : strStarts pat (c :: rest) = false ∧ strHasInfix pat rest = false := by
      simpa [strHasInfix] using h
    rw [delAll_cons_of_not_starts h2.1, ih h2.2]

/-- C6: amended — the recorded relative path is the absolute path with
*every* occurrence of the source root plus trailing separator removed
(Python `str.replace`); it equals the front-stripped path exactly when the
remainder does not itself contain the root-plus-separator as a substring. -/
theorem C6_theorem (music rel : Str)
    (h : strHasInfix (music ++ str "/") rel = false) :
    path_without_music_lib music ((music ++ str "/") ++ rel) = rel := by
  show delAll (music ++ str "/") ((music ++ str "/") ++ rel) = rel
  rw [delAll_append_self rel (by simp [str]), delAll_of_not_infix h]

/-- C6 (witness): a well-behaved path is stripped to exactly the suffix
after the source-root prefix. -/
theorem C6_witness :
    strHasInfix (str "/m" ++ str "/") (str "a/b.flac") = false ∧
    path_without_music_lib (str "/m") ((str "/m" ++ str "/") ++ str "a/b.flac") =
      str "a/b.flac" :=
  ⟨by decide, C6_theorem (str "/m") (str "a/b.flac") (by decide)⟩

/-- C6 (counterexample): for source root `/m`, the file
`/m/a/m/b.flac` — whose front-stripped relative path is `a/m/b.flac` — is
recorded as `ab.flac`: `str.replace` also deletes the inner occurrence of
`/m/`, so the rest of the path is not left unaltered. -/
theorem C6_counterexample :
    path_without_music_lib (str "/m") (str "/m/a/m/b.flac") = str "ab.flac" ∧
    str "/m/a/m/b.flac" = (str "/m" ++ str "/") ++ str "a/m/b.flac" ∧
    str "ab.flac" ≠ str "a/m/b.flac" :=
  ⟨by decide, by decide, by decide⟩

theorem chunksF_foldl :
    ∀ (f n : Nat) (l acc : List Nat), l.length ≤ f → 0 < n →
      (chunksF f n l).foldl (fun a c => a ++ c) acc = acc ++ l := by
  intro f
  induction f with
  | zero =>
    intro n l acc hl _
    have hs : l = [] := List.eq_nil_of_length_eq_zero (Nat.le_zero.mp hl)
    subst hs
    simp [chunksF]
  | succ f ih =>
    intro n l acc hl hn
    cases l with
    | nil => simp [chunksF]
    | cons x xs =>
      simp only [chunksF, if_neg (Nat.pos_iff_ne_zero.mp hn)]
      rw [List.foldl_cons]
      rw [ih n ((x :: xs).drop n) (acc ++ (x :: xs).take n)
        (by simp only [List.length_drop, List.length_cons] at *; omega) hn]
      rw [List.append_assoc, List.take_append_drop]

theorem get_file_hash_with_eq (env : Env) (n : Nat) (filename : Str)
    (hn : 0 < n) :
    get_file_hash_with n env filename =
      hexdigest (env.rawDigest (env.readFile filename)) := by
  unfold get_file_hash_with chunks
  rw [chunksF_foldl _ n _ [] (le_refl _) hn]
  rfl

theorem isHexLowerChar_hexDigit (k : Nat) :
    isHexLowerChar (hexDigit (k % 16)) = true := by
  have h : k % 16 < 16 := Nat.mod_lt _ (by norm_num)
  generalize k % 16 = m at h
  interval_cases m <;> decide

theorem hexdigest_chars {raw : List Nat} :
    ∀ c ∈ hexdigest raw, isHexLowerChar c = true := by
  intro c hc
  unfold hexdigest at hc
  rw [List.mem_flatMap] at hc
  obtain ⟨b, _, hcb⟩ := hc
  unfold hexPair at hcb
  simp only [List.mem_cons, List.mem_singleton, List.not_mem_nil, or_false] at hcb
  rcases hcb with h1 | h1
  · subst h1; exact isHexLowerChar_hexDigit (b / 16)
  · subst h1; exact isHexLowerChar_hexDigit b

/-- C9: for any positive chunk size the chunked digest equals the digest of
the whole byte stream hashed at once (in particular for the source's
constant 4096); the digest is rendered in lowercase hexadecimal; and two
paths with identical bytes yield equal digests. -/
theorem C9_theorem (env : Env) (filename : Str) (n : Nat) (hn : 0 < n) :
    get_file_hash_with n env filename =
      hexdigest (env.rawDigest (env.readFile filename)) ∧
    get_file_hash env filename =
      hexdigest (env.rawDigest (env.readFile filename)) ∧
    (∀ c ∈ get_file_hash env filename, isHexLowerChar c = true) ∧
    (∀ other : Str, env.readFile other = env.readFile filename →
      get_file_hash env other = get_file_hash env filename) := by
  have hmain : get_file_hash env filename =
      hexdigest (env.rawDigest (env.readFile filename)) :=
    get_file_hash_with_eq env HASHER_CHUNK_SIZE filename (by norm_num [HASHER_CHUNK_SIZE])
  refine ⟨get_file_hash_with_eq env n filename hn, hmain, ?_, ?_⟩
  · rw [hmain]
    exact hexdigest_chars
  · intro other h
    unfold get_file_hash get_file_hash_with chunks
    rw [h]

/-- C9 (witness): the chunked and whole-stream digests agree at chunk size
3 on a concrete file, with all the stated consequences. -/
theorem C9_witness :
    0 < 3 ∧
    (get_file_hash_with 3 envW (str "/m/b.flac") =
      hexdigest (envW.rawDigest (envW.readFile (str "/m/b.flac"))) ∧
    get_file_hash envW (str "/m/b.flac") =
      hexdigest (envW.rawDigest (envW.readFile (str "/m/b.flac"))) ∧
    (∀ c ∈ get_file_hash envW (str "/m/b.flac"), isHexLowerChar c = true) ∧
    (∀ other : Str, envW.readFile other = envW.readFile (str "/m/b.flac") →
      get_file_hash envW other = get_file_hash envW (str "/m/b.flac"))) :=
  ⟨by decide, C9_theorem envW (str "/m/b.flac") 3 (by decide)⟩

theorem ffmpeg_convert_no_rsync (env : Env) (st : DState) (intrack outdir : Str) :
    ∀ c ∈ (ffmpeg_convert env st intrack outdir).2.2, isRsyncCall c = false := by
  intro c hc
  unfold ffmpeg_convert at hc
  by_cases hex : pathExists st (outtrackOf intrack outdir) = true
  · rw [if_pos hex] at hc
    rcases hmatch : get_track_stored_hash env st (outtrackOf intrack outdir) with ⟨res, cs⟩
    have hcs : cs = [Call.ffprobe (outtrackOf intrack outdir)] := by
      have := get_track_stored_hash_calls env st (outtrackOf intrack outdir)
      rw [hmatch] at this
      exact this
    rw [hmatch] at hc
    cases res with
    | error e =>
      simp only at hc
      rw [hcs] at hc
      simp only [List.mem_singleton] at hc
      subst hc; rfl
    | ok stored =>
      simp only at hc
      by_cases hm : stored = get_file_hash env intrack
      · rw [if_pos hm] at hc
        rw [hcs] at hc
        simp only [List.mem_singleton] at hc
        subst hc; rfl
      · rw [if_neg hm] at hc
        rw [hcs] at hc
        simp only [List.mem_singleton] at hc
        subst hc; rfl
  · rw [if_neg hex] at hc
    simp only [List.mem_singleton] at hc
    subst hc; rfl

theorem convertLoop_no_rsync (env : Env) (total : Nat) :
    ∀ (l : List (Nat × Str)) (st : DState),
      ∀ c ∈ (convertLoop env total l st).calls, isRsyncCall c = false := by
  intro l
  induction l with
  | nil => intro st c hc; simp [convertLoop] at hc
  | cons p rest ih =>
    intro st c hc
    obtain ⟨i, track⟩ := p
    simp only [convertLoop] at hc
    rcases hgate : ffmpeg_convert env
      { st with dirs := if pyDirname (pyJoin env.portable track) ∈ st.dirs
        then st.dirs else st.dirs ++ [pyDirname (pyJoin env.portable track)] }
      (pyJoin env.music track) (pyDirname (pyJoin env.portable track))
      with ⟨res, st2, cs⟩
    have hcsr : ∀ d ∈ cs, isRsyncCall d = false := by
      intro d hd
      have := ffmpeg_convert_no_rsync env
        { st with dirs := if pyDirname (pyJoin env.portable track) ∈ st.dirs
          then st.dirs else st.dirs ++ [pyDirname (pyJoin env.portable track)] }
        (pyJoin env.music track) (pyDirname (pyJoin env.portable track)) d
      rw [hgate] at this
      exact this hd
    rw [hgate] at hc
    cases res with
    | error e =>
      simp only [List.mem_cons] at hc
      rcases hc with hc | hc
      · subst hc; rfl
      · exact hcsr c hc
    | ok rc =>
      simp only at hc
      by_cases hrc : rc ≠ 0
      · rw [if_pos hrc] at hc
        simp only [List.mem_cons] at hc
        rcases hc with hc | hc
        · subst hc; rfl
        · exact hcsr c hc
      · rw [if_neg hrc] at hc
        simp only [List.mem_cons, List.mem_append] at hc
        rcases hc with (hc | hc) | hc
        · subst hc; rfl
        · exact hcsr c hc
        · exact ih st2 c hc

theorem convertLoop_logs_take (env : Env) (total : Nat) :
    ∀ (l : List (Nat × Str)) (st : DState),
      ∃ k, (convertLoop env total l st).logs =
        (l.map (fun p => (p.1 + 1, total, p.2))).take k := by
  intro l
  induction l with
  | nil => exact fun st => ⟨0, rfl⟩
  | cons p rest ih =>
    intro st
    obtain ⟨i, track⟩ := p
    simp only [convertLoop]
    rcases hgate : ffmpeg_convert env
      { st with dirs := if pyDirname (pyJoin env.portable track) ∈ st.dirs
        then st.dirs else st.dirs ++ [pyDirname (pyJoin env.portable track)] }
      (pyJoin env.music track) (pyDirname (pyJoin env.portable track))
      with ⟨res, st2, cs⟩
    cases res with
    | error e => exact ⟨1, by simp⟩
    | ok rc =>
      simp only
      by_cases hrc : rc ≠ 0
      · rw [if_pos hrc]
        exact ⟨1, by simp⟩
      · rw [if_neg hrc]
        obtain ⟨k, hk⟩ := ih st2
        exact ⟨k + 1, by simp only [List.map_cons, List.take_succ_cons, hk]⟩

/-- C7: both scanned lists are sorted by the string order of `list.sort`,
and the conversion loop processes the transcode-list entries in exactly
that sorted order: its per-track log sequence is an initial segment of the
enumeration of the sorted transcode list. -/
theorem C7_theorem (env : Env) (tree : FTree) (st : DState) :
    List.Sorted pyLe (pySort (classify env (walkTree env.excludeDirs env.music tree)).1) ∧
    List.Sorted pyLe (pySort (classify env (walkTree env.excludeDirs env.music tree)).2) ∧
    ∃ k, (cmd_generate_portable env tree st).logs =
      ((pySort (classify env (walkTree env.excludeDirs env.music tree)).1).enum.map
        (fun p => (p.1 + 1,
          (pySort (classify env (walkTree env.excludeDirs env.music tree)).1).length,
          p.2))).take k := by
  refine ⟨pySort_sorted _, pySort_sorted _, ?_⟩
  by_cases hreg : (pySort (classify env (walkTree env.excludeDirs env.music tree)).2).length = 0
  · simp only [cmd_generate_portable, if_pos hreg]
    exact convertLoop_logs_take env _ _ st
  · simp only [cmd_generate_portable, if_neg hreg]
    exact convertLoop_logs_take env _ _ _

/-- C8: when the copy-list is empty the external mirroring tool is not
invoked at all — the run is exactly the conversion phase started on the
unchanged destination state, and no call of the run is an `rsync` call. -/
theorem C8_theorem (env : Env) (tree : FTree) (st : DState)
    (h : pySort (classify env (walkTree env.excludeDirs env.music tree)).2 = []) :
    cmd_generate_portable env tree st =
      convertLoop env
        (pySort (classify env (walkTree env.excludeDirs env.music tree)).1).length
        (pySort (classify env (walkTree env.excludeDirs env.music tree)).1).enum st ∧
    ∀ c ∈ (cmd_generate_portable env tree st).calls, isRsyncCall c = false := by
  have h0 : cmd_generate_portable env tree st =
      convertLoop env
        (pySort (classify env (walkTree env.excludeDirs env.music tree)).1).length
        (pySort (classify env (walkTree env.excludeDirs env.music tree)).1).enum st := by
    simp only [cmd_generate_portable, h]
    simp
  refine ⟨h0, ?_⟩
  rw [h0]
  exact convertLoop_no_rsync env _ _ st

/-- C8 (witness): a source tree with only a transcodable file has an empty
copy-list; the run skips the mirroring tool and is the conversion phase. -/
theorem C8_witness :
    pySort (classify envW (walkTree envW.excludeDirs envW.music treeOnlyFlac)).2 = [] ∧
    (cmd_generate_portable envW treeOnlyFlac ⟨[], []⟩ =
      convertLoop envW
        (pySort (classify envW (walkTree envW.excludeDirs envW.music treeOnlyFlac)).1).length
        (pySort (classify envW (walkTree envW.excludeDirs envW.music treeOnlyFlac)).1).enum
        ⟨[], []⟩ ∧
     ∀ c ∈ (cmd_generate_portable envW treeOnlyFlac ⟨[], []⟩).calls,
       isRsyncCall c = false) :=
  ⟨by decide, C8_theorem envW treeOnlyFlac ⟨[], []⟩ (by decide)⟩

theorem filter_map_comm {α β : Type} (l : List α) (f : α → β) (p : β → Bool) :
    (l.map f).filter p = (l.filter (fun a => p (f a))).map f := by
  induction l with
  | nil => rfl
  | cons a l ih =>
    simp only [List.map_cons, List.filter_cons]
    by_cases h : p (f a) = true
    · simp [h, ih]
    · simp [h, ih]

theorem slashFree_append_inj :
    ∀ (a b x y : Str), (∀ z ∈ a, z ≠ '/') → (∀ z ∈ b, z ≠ '/') →
      a ++ '/' :: x = b ++ '/' :: y → a = b ∧ x = y := by
  intro a
  induction a with
  | nil =>
    intro b x y _ hb h
    cases b with
    | nil => simpa using h
    | cons c b2 =>
      simp only [List.nil_append, List.cons_append, List.cons.injEq] at h
      exact absurd h.1.symm (hb c (by simp))
  | cons d a2 ih =>
    intro b x y ha hb h
    cases b with
    | nil =>
      simp only [List.cons_append, List.nil_append, List.cons.injEq] at h
      exact absurd h.1 (ha d (by simp))
    | cons c b2 =>
      simp only [List.cons_append, List.cons.injEq] at h
      obtain ⟨rfl, h2⟩ := h
      obtain ⟨h3, h4⟩ := ih b2 x y (fun z hz => ha z (by simp [hz]))
        (fun z hz => hb z (by simp [hz])) h2
      exact ⟨by rw [h3], h4⟩

theorem countOcc_cons_self {β : Type} [DecidableEq β] (x : β) (l : List β) :
    countOcc x (x :: l) = countOcc x l + 1 := by
  simp [countOcc, List.filter_cons]

theorem countOcc_cons_ne {β : Type} [DecidableEq β] {x a : β} (h : a ≠ x)
    (l : List β) : countOcc x (a :: l) = countOcc x l := by
  simp [countOcc, List.filter_cons, h]

theorem countOcc_eq_zero {β : Type} [DecidableEq β] {x : β} {l : List β} :
    countOcc x l = 0 ↔ x ∉ l := by
  simp only [countOcc, List.length_eq_zero, List.filter_eq_nil_iff,
    decide_eq_true_eq]
  constructor
  · intro h hx
    exact h x hx rfl
  · intro h y hy heq
    exact h (heq ▸ hy)

theorem countOcc_perm {β : Type} [DecidableEq β] {l1 l2 : List β}
    (h : List.Perm l1 l2) (x : β) : countOcc x l1 = countOcc x l2 :=
  (h.filter _).length_eq

theorem count_map_filter_nodup {α β : Type} [DecidableEq β]
    (f : α → β) (p : α → Bool) :
    ∀ (l : List α) (e : α), e ∈ l → (l.map f).Nodup →
      countOcc (f e) ((l.filter p).map f) = if p e = true then 1 else 0 := by
  intro l
  induction l with
  | nil => intro e he; simp at he
  | cons a l2 ih =>
    intro e he hnd
    simp only [List.map_cons, List.nodup_cons] at hnd
    obtain ⟨hfa, hnd2⟩ := hnd
    simp only [List.mem_cons] at he
    rcases he with rfl | he
    · have h0 : countOcc (f e) ((l2.filter p).map f) = 0 := by
        rw [countOcc_eq_zero]
        intro hmem
        obtain ⟨w, hw, hwe⟩ := List.mem_map.mp hmem
        exact hfa (hwe ▸ List.mem_map_of_mem f (List.mem_of_mem_filter hw))
      rw [List.filter_cons]
      by_cases hp : p e = true
      · rw [if_pos hp, if_pos hp]
        simp only [List.map_cons, countOcc_cons_self, h0]
      · rw [if_neg hp, if_neg hp]
        exact h0
    · have hne : f a ≠ f e := by
        intro hfe
        exact hfa (hfe ▸ List.mem_map_of_mem f he)
      rw [List.filter_cons]
      by_cases hp : p a = true
      · rw [if_pos hp]
        simp only [List.map_cons]
        rw [countOcc_cons_ne hne]
        exact ih e he hnd2
      · rw [if_neg hp]
        exact ih e he hnd2

theorem classify_foldl (env : Env) :
    ∀ (pairs : List (Str × Str)) (a b : List Str),
      pairs.foldl
        (fun acc pr =>
          if extOf pr.2 ∈ env.convertExts then
            (acc.1 ++ [path_without_music_lib env.music pr.1], acc.2)
          else
            (acc.1, acc.2 ++ [path_without_music_lib env.music pr.1]))
        (a, b) =
      (a ++ (pairs.filter (fun pr => decide (extOf pr.2 ∈ env.convertExts))).map
          (fun pr => path_without_music_lib env.music pr.1),
       b ++ (pairs.filter (fun pr => !decide (extOf pr.2 ∈ env.convertExts))).map
          (fun pr => path_without_music_lib env.music pr.1)) := by
  intro pairs
  induction pairs with
  | nil => intro a b; simp
  | cons pr rest ih =>
    intro a b
    simp only [List.foldl_cons, List.filter_cons]
    by_cases h : extOf pr.2 ∈ env.convertExts
    · rw [if_pos h, ih]
      simp [h]
    · rw [if_neg h, ih]
      simp [h]

theorem classify_parts (env : Env) (pairs : List (Str × Str)) :
    classify env pairs =
      ((pairs.filter (fun pr => decide (extOf pr.2 ∈ env.convertExts))).map
          (fun pr => path_without_music_lib env.music pr.1),
       (pairs.filter (fun pr => !decide (extOf pr.2 ∈ env.convertExts))).map
          (fun pr => path_without_music_lib env.music pr.1)) := by
  unfold classify
  rw [classify_foldl]
  simp

mutual
theorem walkTree_eq (ex : List Str) (root : Str) (t : FTree) :
    walkTree ex root t =
      ((entriesT t).filter (keptEntry ex)).map
        (fun e => (pyJoin (joinAll root e.1) e.2, e.2)) := by
  cases t with
  | node dirs files =>
    simp only [walkTree, entriesT, List.filter_append, List.map_append]
    rw [walkForest_eq ex root dirs]
    rw [filter_map_comm]
    have hkept : (files.filter fun f => keptEntry ex (([] : List Str), f)) = files := by
      apply List.filter_eq_self.mpr
      intro f _
      rfl
    rw [hkept, List.map_map]
    rfl

theorem walkForest_eq (ex : List Str) (root : Str) (fs : FForest) :
    walkForest ex root fs =
      ((entriesF fs).filter (keptEntry ex)).map
        (fun e => (pyJoin (joinAll root e.1) e.2, e.2)) := by
  cases fs with
  | fnil => rfl
  | fcons name t rest =>
    simp only [walkForest, entriesF, List.filter_append, List.map_append]
    rw [walkForest_eq ex root rest]
    rw [filter_map_comm]
    by_cases hname : name ∈ ex
    · have hdrop : ((entriesT t).filter fun e => keptEntry ex (name :: e.1, e.2)) = [] := by
        apply List.filter_eq_nil_iff.mpr
        intro e _
        simp [keptEntry, hname]
      rw [if_pos hname, hdrop]
      rfl
    · have hsame : ((entriesT t).filter fun e => keptEntry ex (name :: e.1, e.2)) =
          (entriesT t).filter (keptEntry ex) := by
        apply List.filter_congr
        intro e _
        simp [keptEntry, hname]
      rw [if_neg hname, hsame, walkTree_eq ex (pyJoin root name) t, List.map_map]
      rfl
end

theorem goodName_ne_nil {s : Str} (h : goodName s = true) : s ≠ [] := by
  simp only [goodName, Bool.and_eq_true, decide_eq_true_eq] at h
  exact h.1

theorem goodName_no_slash {s : Str} (h : goodName s = true) :
    ∀ z ∈ s, z ≠ '/' := by
  simp only [goodName, Bool.and_eq_true, List.all_eq_true, decide_eq_true_eq] at h
  exact h.2

theorem goodName_head_ne {s : Str} (h : goodName s = true) :
    s.head? ≠ some '/' := by
  cases s with
  | nil => simp
  | cons c t =>
    intro hc
    simp only [List.head?_cons, Option.some.injEq] at hc
    exact goodName_no_slash h c (by simp) hc

theorem goodName_last_ne {s : Str} (h : goodName s = true) :
    s.getLast? ≠ some '/' := by
  intro hc
  have hmem : '/' ∈ s.getLast? := by rw [Option.mem_def]; exact hc
  obtain ⟨hne, heq⟩ := List.mem_getLast?_eq_getLast hmem
  exact goodName_no_slash h '/' (heq ▸ List.getLast_mem hne) rfl

theorem append_cons_last {root s : Str} (hs : goodName s = true) :
    (root ++ '/' :: s).getLast? ≠ some '/' := by
  rw [List.getLast?_append_cons]
  cases s with
  | nil => exact absurd rfl (goodName_ne_nil hs)
  | cons c t =>
    rw [List.getLast?_cons_cons]
    exact goodName_last_ne hs

theorem joinSegs_cons (s : Str) {rest : List Str} (h : rest ≠ []) :
    joinSegs (s :: rest) = s ++ '/' :: joinSegs rest := by
  cases rest with
  | nil => exact absurd rfl h
  | cons r rs => rfl

theorem joinSegs_shape {segs : List Str} (hne : segs ≠ [])
    (hg : ∀ s ∈ segs, goodName s = true) :
    ∃ c t2, joinSegs segs = c :: t2 ∧ c ≠ '/' := by
  cases segs with
  | nil => exact absurd rfl hne
  | cons s rest =>
    have hs := hg s (by simp)
    obtain ⟨c, t, rfl⟩ : ∃ c t, s = c :: t := by
      cases s with
      | nil => exact absurd rfl (goodName_ne_nil hs)
      | cons c t => exact ⟨c, t, rfl⟩
    have hc : c ≠ '/' := goodName_no_slash hs c (by simp)
    cases rest with
    | nil => exact ⟨c, t, rfl, hc⟩
    | cons r rs => exact ⟨c, t ++ '/' :: joinSegs (r :: rs), rfl, hc⟩

theorem pyJoin_good {a b : Str} (hb1 : b.head? ≠ some '/') (ha1 : a ≠ [])
    (ha2 : a.getLast? ≠ some '/') : pyJoin a b = a ++ '/' :: b := by
  unfold pyJoin
  rw [if_neg hb1, if_neg ha1, if_neg ha2]

theorem joinAll_path : ∀ (segs : List Str) (root name : Str),
    root ≠ [] → root.getLast? ≠ some '/' →
    (∀ s ∈ segs, goodName s = true) → goodName name = true →
    pyJoin (joinAll root segs) name = root ++ '/' :: joinSegs (segs ++ [name]) := by
  intro segs
  induction segs with
  | nil =>
    intro root name h1 h2 _ hn
    show pyJoin root name = root ++ '/' :: joinSegs [name]
    rw [pyJoin_good (goodName_head_ne hn) h1 h2]
    rfl
  | cons s rest ih =>
    intro root name h1 h2 hg hn
    have hs := hg s (by simp)
    have hjoin : pyJoin root s = root ++ '/' :: s :=
      pyJoin_good (goodName_head_ne hs) h1 h2
    show pyJoin (joinAll (pyJoin root s) rest) name = _
    rw [hjoin]
    rw [ih (root ++ '/' :: s) name (by simp) (append_cons_last hs)
      (fun z hz => hg z (by simp [hz])) hn]
    have hjs : joinSegs ((s :: rest) ++ [name]) = s ++ '/' :: joinSegs (rest ++ [name]) := by
      rw [List.cons_append]
      exact joinSegs_cons s (by simp)
    rw [hjs, List.append_assoc]
    rfl

theorem wfT_node {dirs : FForest} {files : List Str}
    (h : wfT (.node dirs files) = true) :
    files.all goodName = true ∧ files.Nodup ∧
    (forestNames dirs).all goodName = true ∧ (forestNames dirs).Nodup ∧
    wfF dirs = true := by
  simp only [wfT, Bool.and_eq_true, decide_eq_true_eq] at h
  exact ⟨h.1.1.1.1, h.1.1.1.2, h.1.1.2, h.1.2, h.2⟩

theorem wfF_cons {name : Str} {t : FTree} {rest : FForest}
    (h : wfF (.fcons name t rest) = true) : wfT t = true ∧ wfF rest = true := by
  simp only [wfF, Bool.and_eq_true] at h
  exact h

theorem entriesF_head (fs : FForest) (e : List Str × Str) (he : e ∈ entriesF fs) :
    ∃ name tail2, e.1 = name :: tail2 ∧ name ∈ forestNames fs := by
  cases fs with
  | fnil => simp [entriesF] at he
  | fcons name t rest =>
    simp only [entriesF, List.mem_append] at he
    rcases he with he | he
    · obtain ⟨e2, _, rfl⟩ := List.mem_map.mp he
      exact ⟨name, e2.1, rfl, by simp [forestNames]⟩
    · obtain ⟨n2, t2, heq, hn⟩ := entriesF_head rest e he
      exact ⟨n2, t2, heq, by simp [forestNames, hn]⟩

mutual
theorem entriesT_good (t : FTree) (h : wfT t = true) :
    ∀ e ∈ entriesT t, (∀ s ∈ e.1, goodName s = true) ∧ goodName e.2 = true := by
  cases t with
  | node dirs files =>
    intro e he
    obtain ⟨hfg, _, hng, _, hwf⟩ := wfT_node h
    simp only [entriesT, List.mem_append] at he
    rcases he with he | he
    · obtain ⟨f, hf, rfl⟩ := List.mem_map.mp he
      exact ⟨by simp, List.all_eq_true.mp hfg f hf⟩
    · exact entriesF_good dirs hng hwf e he

theorem entriesF_good (fs : FForest) (h1 : (forestNames fs).all goodName = true)
    (h2 : wfF fs = true) :
    ∀ e ∈ entriesF fs, (∀ s ∈ e.1, goodName s = true) ∧ goodName e.2 = true := by
  cases fs with
  | fnil => intro e he; simp [entriesF] at he
  | fcons name t rest =>
    intro e he
    obtain ⟨hwt, hwr⟩ := wfF_cons h2
    simp only [forestNames, List.all_cons, Bool.and_eq_true] at h1
    simp only [entriesF, List.mem_append] at he
    rcases he with he | he
    · obtain ⟨e2, he2, rfl⟩ := List.mem_map.mp he
      obtain ⟨hg1, hg2⟩ := entriesT_good t hwt e2 he2
      refine ⟨?_, hg2⟩
      intro s hs
      simp only [List.mem_cons] at hs
      rcases hs with rfl | hs
      · exact h1.1
      · exact hg1 s hs
    · exact entriesF_good rest h1.2 hwr e he
end

theorem entryRel_consSeg (name : Str) (e : List Str × Str) :
    entryRel (name :: e.1, e.2) = name ++ '/' :: entryRel e := by
  show joinSegs ((name :: e.1) ++ [e.2]) = _
  rw [List.cons_append]
  exact joinSegs_cons name (by simp)

theorem entriesF_rel_shape (fs : FForest) (e : List Str × Str)
    (he : e ∈ entriesF fs) :
    ∃ name r, entryRel e = name ++ '/' :: r ∧ name ∈ forestNames fs := by
  obtain ⟨name, tail2, h1, hn⟩ := entriesF_head fs e he
  refine ⟨name, joinSegs (tail2 ++ [e.2]), ?_, hn⟩
  show joinSegs (e.1 ++ [e.2]) = _
  rw [h1, List.cons_append]
  exact joinSegs_cons name (by simp)

mutual
theorem entriesT_rel_nodup (t : FTree) (h : wfT t = true) :
    ((entriesT t).map entryRel).Nodup := by
  cases t with
  | node dirs files =>
    obtain ⟨hfg, hfnd, hng, hnnd, hwf⟩ := wfT_node h
    simp only [entriesT, List.map_append, List.map_map]
    rw [List.nodup_append]
    refine ⟨?_, entriesF_rel_nodup dirs hng hnnd hwf, ?_⟩
    · have hid : (files.map (entryRel ∘ fun f => (([] : List Str), f))) = files := by
        rw [show (entryRel ∘ fun f : Str => (([] : List Str), f)) = id from
          funext fun f => rfl, List.map_id]
      rw [hid]
      exact hfnd
    · intro x hx hx2
      obtain ⟨f, hf, rfl⟩ := List.mem_map.mp hx
      obtain ⟨e2, he2, heq⟩ := List.mem_map.mp hx2
      obtain ⟨n2, r2, hshape, _⟩ := entriesF_rel_shape dirs e2 he2
      have hgood : goodName ((entryRel ∘ fun f : Str => (([] : List Str), f)) f) = true := by
        simpa using List.all_eq_true.mp hfg f hf
      have hslash : '/' ∈ (entryRel ∘ fun f : Str => (([] : List Str), f)) f := by
        rw [← heq, hshape]
        exact List.mem_append_right _ (by simp)
      exact goodName_no_slash hgood '/' hslash rfl

theorem entriesF_rel_nodup (fs : FForest) (h1 : (forestNames fs).all goodName = true)
    (h2 : (forestNames fs).Nodup) (h3 : wfF fs = true) :
    ((entriesF fs).map entryRel).Nodup := by
  cases fs with
  | fnil => simp [entriesF]
  | fcons name t rest =>
    obtain ⟨hwt, hwr⟩ := wfF_cons h3
    simp only [forestNames, List.all_cons, Bool.and_eq_true] at h1
    simp only [forestNames, List.nodup_cons] at h2
    simp only [entriesF, List.map_append, List.map_map]
    rw [List.nodup_append]
    refine ⟨?_, entriesF_rel_nodup rest h1.2 h2.2 hwr, ?_⟩
    · have hcomp : (entryRel ∘ fun e : List Str × Str => (name :: e.1, e.2)) =
          (fun r => name ++ '/' :: r) ∘ entryRel := funext fun e => entryRel_consSeg name e
      rw [hcomp, ← List.map_map]
      refine List.Nodup.map ?_ (entriesT_rel_nodup t hwt)
      intro r1 r2 hr
      have h5 : ('/' :: r1 : Str) = '/' :: r2 := List.append_cancel_left hr
      simpa using h5
    · intro x hx hx2
      obtain ⟨e2, _, heq⟩ := List.mem_map.mp hx
      obtain ⟨e3, he3, heq3⟩ := List.mem_map.mp hx2
      obtain ⟨n3, r3, hshape3, hn3⟩ := entriesF_rel_shape rest e3 he3
      have hx1 : x = name ++ '/' :: entryRel e2 := by
        rw [← heq]
        exact (entryRel_consSeg name e2).symm ▸ rfl
      have hx3 : x = n3 ++ '/' :: r3 := by rw [← heq3, hshape3]
      have hgname : goodName name = true := h1.1
      have hgn3 : goodName n3 = true := List.all_eq_true.mp h1.2 n3 hn3
      have heqn : name = n3 ∧ entryRel e2 = r3 :=
        slashFree_append_inj name n3 (entryRel e2) r3
          (goodName_no_slash hgname) (goodName_no_slash hgn3)
          (by rw [← hx1, hx3])
      exact h2.1 (heqn.1 ▸ hn3)
end

theorem entry_path_strip (env : Env) (tree : FTree)
    (h1 : env.music ≠ []) (h2 : env.music.getLast? ≠ some '/')
    (hwf : wfT tree = true) (e : List Str × Str) (he : e ∈ entriesT tree)
    (hnm : strHasInfix (env.music ++ str "/") (entryRel e) = false) :
    path_without_music_lib env.music (pyJoin (joinAll env.music e.1) e.2) =
      entryRel e := by
  obtain ⟨hg1, hg2⟩ := entriesT_good tree hwf e he
  show delAll (env.music ++ str "/") (pyJoin (joinAll env.music e.1) e.2) = entryRel e
  rw [joinAll_path e.1 env.music e.2 h1 h2 hg1 hg2]
  have hsplit : env.music ++ '/' :: joinSegs (e.1 ++ [e.2]) =
      (env.music ++ str "/") ++ entryRel e := by
    rw [List.append_assoc]
    rfl
  rw [hsplit, delAll_append_self _ (by simp [str]), delAll_of_not_infix hnm]

theorem scan_lists (env : Env) (tree : FTree)
    (h1 : env.music ≠ []) (h2 : env.music.getLast? ≠ some '/')
    (hwf : wfT tree = true)
    (hnm : ∀ e ∈ entriesT tree, strHasInfix (env.music ++ str "/") (entryRel e) = false) :
    (classify env (walkTree env.excludeDirs env.music tree)).1 =
      (((entriesT tree).filter (keptEntry env.excludeDirs)).filter
        (fun e => decide (extOf e.2 ∈ env.convertExts))).map entryRel ∧
    (classify env (walkTree env.excludeDirs env.music tree)).2 =
      (((entriesT tree).filter (keptEntry env.excludeDirs)).filter
        (fun e => !decide (extOf e.2 ∈ env.convertExts))).map entryRel := by
  have hc := classify_parts env (walkTree env.excludeDirs env.music tree)
  have hw := walkTree_eq env.excludeDirs env.music tree
  constructor
  · simp only [hc]
    rw [hw, filter_map_comm, List.map_map]
    apply List.map_congr_left
    intro e he
    exact entry_path_strip env tree h1 h2 hwf e
      (List.mem_of_mem_filter (List.mem_of_mem_filter he))
      (hnm e (List.mem_of_mem_filter (List.mem_of_mem_filter he)))
  · simp only [hc]
    rw [hw, filter_map_comm, List.map_map]
    apply List.map_congr_left
    intro e he
    exact entry_path_strip env tree h1 h2 hwf e
      (List.mem_of_mem_filter (List.mem_of_mem_filter he))
      (hnm e (List.mem_of_mem_filter (List.mem_of_mem_filter he)))

/-- C5: amended — with "extension" read as `os.path.splitext` computes it
(the text after the last dot, except that a name consisting of leading
dots followed by that text, such as `.flac`, has no extension), and for a
source root and tree whose names are well formed and whose relative paths
do not contain the root-plus-separator as an inner substring: every file
kept by the top-down exclusion filter appears exactly once in the
transcode-list when its extension is in the configured set and exactly
once in the copy-list otherwise, and a file inside an excluded directory
appears in neither list. -/
theorem C5_theorem (env : Env) (tree : FTree)
    (h1 : env.music ≠ []) (h2 : env.music.getLast? ≠ some '/')
    (hwf : wfT tree = true)
    (hnm : ∀ e ∈ entriesT tree, strHasInfix (env.music ++ str "/") (entryRel e) = false) :
    ∀ e ∈ entriesT tree,
      (keptEntry env.excludeDirs e = true →
        countOcc (entryRel e)
            (pySort (classify env (walkTree env.excludeDirs env.music tree)).1) =
          (if extOf e.2 ∈ env.convertExts then 1 else 0) ∧
        countOcc (entryRel e)
            (pySort (classify env (walkTree env.excludeDirs env.music tree)).2) =
          (if extOf e.2 ∈ env.convertExts then 0 else 1)) ∧
      (keptEntry env.excludeDirs e = false →
        countOcc (entryRel e)
            (pySort (classify env (walkTree env.excludeDirs env.music tree)).1) = 0 ∧
        countOcc (entryRel e)
            (pySort (classify env (walkTree env.excludeDirs env.music tree)).2) = 0) := by
  intro e he
  obtain ⟨hs1, hs2⟩ := scan_lists env tree h1 h2 hwf hnm
  have hnodupAll : ((entriesT tree).map entryRel).Nodup := entriesT_rel_nodup tree hwf
  have hnodupKept :
      (((entriesT tree).filter (keptEntry env.excludeDirs)).map entryRel).Nodup :=
    List.Nodup.sublist (List.Sublist.map entryRel (List.filter_sublist _)) hnodupAll
  constructor
  · intro hkept
    have hek : e ∈ (entriesT tree).filter (keptEntry env.excludeDirs) :=
      List.mem_filter.mpr ⟨he, hkept⟩
    constructor
    · rw [countOcc_perm (pySort_perm _), hs1,
        count_map_filter_nodup entryRel _ _ e hek hnodupKept]
      by_cases hext : extOf e.2 ∈ env.convertExts
      · simp [hext]
      · simp [hext]
    · rw [countOcc_perm (pySort_perm _), hs2,
        count_map_filter_nodup entryRel _ _ e hek hnodupKept]
      by_cases hext : extOf e.2 ∈ env.convertExts
      · simp [hext]
      · simp [hext]
  · intro hkept
    have hnot : entryRel e ∉
        ((entriesT tree).filter (keptEntry env.excludeDirs)).map entryRel := by
      intro hmem
      obtain ⟨e2, he2, heq⟩ := List.mem_map.mp hmem
      have he2b : e2 ∈ entriesT tree := List.mem_of_mem_filter he2
      have heqe : e2 = e := List.inj_on_of_nodup_map hnodupAll he2b he heq
      rw [heqe] at he2
      have hkept2 := (List.mem_filter.mp he2).2
      rw [hkept] at hkept2
      exact Bool.false_ne_true hkept2
    constructor
    · rw [countOcc_perm (pySort_perm _), hs1, countOcc_eq_zero]
      intro hmem
      apply hnot
      obtain ⟨e2, he2, heq⟩ := List.mem_map.mp hmem
      exact heq ▸ List.mem_map_of_mem entryRel (List.mem_of_mem_filter he2)
    · rw [countOcc_perm (pySort_perm _), hs2, countOcc_eq_zero]
      intro hmem
      apply hnot
      obtain ⟨e2, he2, heq⟩ := List.mem_map.mp hmem
      exact heq ▸ List.mem_map_of_mem entryRel (List.mem_of_mem_filter he2)

/-- C5 (witness): on a concrete well-formed tree the amended classification
statement holds. -/
theorem C5_witness :
    (envW.music ≠ [] ∧ envW.music.getLast? ≠ some '/' ∧ wfT treeBoth = true ∧
      ∀ e ∈ entriesT treeBoth,
        strHasInfix (envW.music ++ str "/") (entryRel e) = false) ∧
    ∀ e ∈ entriesT treeBoth,
      (keptEntry envW.excludeDirs e = true →
        countOcc (entryRel e)
            (pySort (classify envW (walkTree envW.excludeDirs envW.music treeBoth)).1) =
          (if extOf e.2 ∈ envW.convertExts then 1 else 0) ∧
        countOcc (entryRel e)
            (pySort (classify envW (walkTree envW.excludeDirs envW.music treeBoth)).2) =
          (if extOf e.2 ∈ envW.convertExts then 0 else 1)) ∧
      (keptEntry envW.excludeDirs e = false →
        countOcc (entryRel e)
            (pySort (classify envW (walkTree envW.excludeDirs envW.music treeBoth)).1) = 0 ∧
        countOcc (entryRel e)
            (pySort (classify envW (walkTree envW.excludeDirs envW.music treeBoth)).2) = 0) :=
  ⟨⟨by decide, by decide, by decide, by decide⟩,
    C5_theorem envW treeBoth (by decide) (by decide) (by decide) (by decide)⟩

/-- C5 (counterexample): the dotfile `.flac` — whose text after the last
dot, `flac`, is in the transcode set — is classified Copy by the code
(`os.path.splitext` gives dotfiles no extension): it appears zero times in
the transcode-list and once in the copy-list, refuting the claim's
extension rule. -/
theorem C5_counterexample :
    afterLastDot (str ".flac") = str "flac" ∧
    (str "flac") ∈ envW.convertExts ∧
    keptEntry envW.excludeDirs (([] : List Str), str ".flac") = true ∧
    (([] : List Str), str ".flac") ∈ entriesT treeDot ∧
    entryRel (([] : List Str), str ".flac") = str ".flac" ∧
    countOcc (str ".flac")
      (pySort (classify envW (walkTree envW.excludeDirs envW.music treeDot)).1) = 0 ∧
    countOcc (str ".flac")
      (pySort (classify envW (walkTree envW.excludeDirs envW.music treeDot)).2) = 1 := by
  refine ⟨by decide, by decide, by decide, by decide, by decide, by decide, by decide⟩

theorem strStarts_append_of {a b : Str} (h : strStarts a b = true) (c : Str) :
    strStarts a (b ++ c) = true := by
  induction a generalizing b with
  | nil => rfl
  | cons x xs ih =>
    cases b with
    | nil => simp [strStarts] at h
    | cons y ys =>
      simp only [strStarts, Bool.and_eq_true, decide_eq_true_eq] at h
      simp only [List.cons_append, strStarts, Bool.and_eq_true, decide_eq_true_eq]
      exact ⟨h.1, ih h.2⟩

theorem strStarts_ne_nil {a b : Str} (ha : a ≠ []) (h : strStarts a b = true) :
    b ≠ [] := by
  cases a with
  | nil => exact absurd rfl ha
  | cons x xs =>
    cases b with
    | nil => simp [strStarts] at h
    | cons y ys => simp

theorem dropWhile_head_false {p : Char → Bool} :
    ∀ (l : Str) (c : Char) (t : Str), l.dropWhile p = c :: t → p c = false := by
  intro l
  induction l with
  | nil => intro c t h; simp at h
  | cons a l2 ih =>
    intro c t h
    by_cases hpa : p a = true
    · rw [List.dropWhile_cons_of_pos hpa] at h
      exact ih c t h
    · rw [List.dropWhile_cons_of_neg hpa] at h
      injection h with h1 h2
      rw [← h1]
      exact Bool.eq_false_iff.mpr hpa

theorem rstrip_slash_of_last {a : Str} (h : a.getLast? ≠ some '/') :
    a.reverse.dropWhile (fun c => c = '/') = a.reverse := by
  cases hr : a.reverse with
  | nil => rfl
  | cons c t =>
    have hc : c ≠ '/' := by
      intro hc2
      apply h
      rw [← List.head?_reverse, hr, hc2]
      rfl
    rw [List.dropWhile_cons_of_neg (by simpa using hc)]

theorem rstrip_append {a b : Str} (h : a.getLast? ≠ some '/') :
    rstripSlashes (a ++ b) = a ++ rstripSlashes b := by
  unfold rstripSlashes
  rw [List.reverse_append, List.dropWhile_append]
  by_cases hemp : (b.reverse.dropWhile (fun c => c = '/')).isEmpty = true
  · rw [if_pos hemp, rstrip_slash_of_last h, List.reverse_reverse]
    have hb : (b.reverse.dropWhile (fun c => c = '/')).reverse = [] := by
      rw [List.isEmpty_iff] at hemp
      rw [hemp]
      rfl
    rw [hb, List.append_nil]
  · rw [if_neg hemp, List.reverse_append, List.reverse_reverse]

theorem rstrip_last_ne (w : Str) : (rstripSlashes w).getLast? ≠ some '/' := by
  intro hc
  unfold rstripSlashes at hc
  rw [List.getLast?_reverse] at hc
  cases hd : w.reverse.dropWhile (fun c => c = '/') with
  | nil => rw [hd] at hc; simp at hc
  | cons c t =>
    rw [hd] at hc
    simp only [List.head?_cons, Option.some.injEq] at hc
    have hfalse := dropWhile_head_false w.reverse c t hd
    rw [hc] at hfalse
    simp at hfalse

theorem pyDirname_keeps {a : Str} (b : Str) (ha : a ≠ [])
    (hlast : a.getLast? ≠ some '/') :
    ∃ z : Str, pyDirname (a ++ '/' :: b) = a ++ z ∧
      (a ++ z).getLast? ≠ some '/' := by
  have hrev : (a ++ '/' :: b).reverse = b.reverse ++ '/' :: a.reverse := by
    rw [List.reverse_append, List.reverse_cons, List.append_assoc]
    rfl
  have hhead : ∃ R : Str,
      ((a ++ '/' :: b).reverse.dropWhile (fun c => c ≠ '/')).reverse =
        a ++ '/' :: R := by
    rw [hrev, List.dropWhile_append]
    by_cases hemp : (b.reverse.dropWhile (fun c => c ≠ '/')).isEmpty = true
    · refine ⟨[], ?_⟩
      rw [if_pos hemp, List.dropWhile_cons_of_neg (by simp)]
      rw [List.reverse_cons, List.reverse_reverse]
    · rw [if_neg hemp]
      cases hd : b.reverse.dropWhile (fun c => c ≠ '/') with
      | nil => rw [hd] at hemp; simp at hemp
      | cons d t =>
        refine ⟨(d :: t).reverse, ?_⟩
        rw [List.reverse_append, List.reverse_cons, List.reverse_reverse,
          List.append_assoc]
        rfl
  obtain ⟨R, hR⟩ := hhead
  obtain ⟨c, hc⟩ : ∃ c, a.getLast? = some c := by
    cases a with
    | nil => exact absurd rfl ha
    | cons x xs => exact ⟨(x :: xs).getLast (by simp), List.getLast?_eq_getLast _ _⟩
  have hcne : c ≠ '/' := fun h2 => hlast (h2 ▸ hc)
  have hcmema : c ∈ a := by
    have hmem : c ∈ a.getLast? := by rw [Option.mem_def]; exact hc
    obtain ⟨hne2, heq⟩ := List.mem_getLast?_eq_getLast hmem
    exact heq ▸ List.getLast_mem hne2
  have hnotall : ¬((a ++ '/' :: R).all (fun c => c = '/') = true) := by
    intro hall
    have := List.all_eq_true.mp hall c (List.mem_append_left _ hcmema)
    simp only [decide_eq_true_eq] at this
    exact hcne this
  refine ⟨rstripSlashes ('/' :: R), ?_, ?_⟩
  · simp only [pyDirname]
    rw [hR, if_neg (by simp : ¬(a ++ '/' :: R = [])), if_neg hnotall]
    exact rstrip_append hlast
  · cases hz : rstripSlashes ('/' :: R) with
    | nil => rw [List.append_nil]; exact hlast
    | cons z0 zt =>
      rw [List.getLast?_append_cons]
      rw [← hz]
      exact rstrip_last_ne ('/' :: R)

theorem strStarts_pyJoin {a outdir b : Str} (h : strStarts a outdir = true)
    (ha : a ≠ []) (hb : b.head? ≠ some '/') :
    strStarts a (pyJoin outdir b) = true := by
  unfold pyJoin
  rw [if_neg hb, if_neg (strStarts_ne_nil ha h)]
  by_cases hl : outdir.getLast? = some '/'
  · rw [if_pos hl]
    exact strStarts_append_of h b
  · rw [if_neg hl]
    exact strStarts_append_of h ('/' :: b)

theorem strStarts_self (a : Str) : strStarts a a = true := by
  induction a with
  | nil => rfl
  | cons x xs ih => simp [strStarts, ih]

theorem strStarts_head_ne {pat s : Str} {p0 c : Char}
    (hp : pat.head? = some p0) (hs : s.head? = some c) (hne : p0 ≠ c) :
    strStarts pat s = false := by
  cases pat with
  | nil => simp at hp
  | cons x xs =>
    cases s with
    | nil => simp at hs
    | cons y ys =>
      simp only [List.head?_cons, Option.some.injEq] at hp hs
      subst hp
      subst hs
      simp [strStarts, hne]

theorem pyBasename_no_slash (p : Str) : ∀ z ∈ pyBasename p, z ≠ '/' := by
  intro z hz
  unfold pyBasename at hz
  rw [List.mem_reverse] at hz
  have := List.mem_takeWhile_imp hz
  simpa using this

theorem outtrack_head (infile : Str) :
    (splitextRoot (pyBasename infile) ++ str ".ogg").head? ≠ some '/' := by
  cases hroot : splitextRoot (pyBasename infile) with
  | nil => simp [str]
  | cons c t =>
    have hc : c ∈ pyBasename infile := by
      have hsub : List.Sublist (splitextRoot (pyBasename infile)) (pyBasename infile) :=
        List.take_sublist _ _
      rw [hroot] at hsub
      exact hsub.mem (by simp)
    have hne := pyBasename_no_slash infile c hc
    simp only [List.cons_append, List.head?_cons, ne_eq, Option.some.injEq]
    exact hne

theorem scan_mem_shape (env : Env) (tree : FTree)
    (hm1 : env.music.head? = some '/') (hm3 : env.music.getLast? ≠ some '/')
    (hwf : wfT tree = true) (x : Str)
    (hx : x ∈ (classify env (walkTree env.excludeDirs env.music tree)).1 ∨
          x ∈ (classify env (walkTree env.excludeDirs env.music tree)).2) :
    ∃ c t2, x = c :: t2 ∧ c ≠ '/' := by
  have hm0 : env.music ≠ [] := by
    intro h
    rw [h] at hm1
    simp at hm1
  have hc := classify_parts env (walkTree env.excludeDirs env.music tree)
  have hw := walkTree_eq env.excludeDirs env.music tree
  have key : ∀ e ∈ entriesT tree, ∃ c t2,
      path_without_music_lib env.music (pyJoin (joinAll env.music e.1) e.2) =
        c :: t2 ∧ c ≠ '/' := by
    intro e he
    obtain ⟨hg1, hg2⟩ := entriesT_good tree hwf e he
    have hgall : ∀ s ∈ e.1 ++ [e.2], goodName s = true := by
      intro s hs
      rcases List.mem_append.mp hs with hs | hs
      · exact hg1 s hs
      · simp only [List.mem_singleton] at hs
        exact hs ▸ hg2
    obtain ⟨c, t2, hrel, hcne⟩ := joinSegs_shape (by simp) hgall
    refine ⟨c, delAll (env.music ++ str "/") t2, ?_, hcne⟩
    show delAll (env.music ++ str "/") (pyJoin (joinAll env.music e.1) e.2) = _
    rw [joinAll_path e.1 env.music e.2 hm0 hm3 hg1 hg2]
    have hsplit : env.music ++ '/' :: joinSegs (e.1 ++ [e.2]) =
        (env.music ++ str "/") ++ joinSegs (e.1 ++ [e.2]) := by
      rw [List.append_assoc]
      rfl
    rw [hsplit, delAll_append_self _ (by simp [str]), hrel]
    have hpathead : (env.music ++ str "/").head? = some '/' := by
      rw [List.head?_append, hm1]
      rfl
    rw [delAll_cons_of_not_starts
      (strStarts_head_ne hpathead (by rfl) (Ne.symm hcne))]
  rcases hx with hx | hx
  · simp only [hc] at hx
    rw [hw] at hx
    obtain ⟨pr, hpr, rfl⟩ := List.mem_map.mp hx
    obtain ⟨e, he2, rfl⟩ := List.mem_map.mp (List.mem_of_mem_filter hpr)
    exact key e (List.mem_of_mem_filter he2)
  · simp only [hc] at hx
    rw [hw] at hx
    obtain ⟨pr, hpr, rfl⟩ := List.mem_map.mp hx
    obtain ⟨e, he2, rfl⟩ := List.mem_map.mp (List.mem_of_mem_filter hpr)
    exact key e (List.mem_of_mem_filter he2)

theorem gate_targets {env : Env} (st : DState) (intrack outdir : Str)
    (h1 : strStarts env.portable outdir = true) (hp1 : env.portable ≠ []) :
    ∀ p ∈ ((ffmpeg_convert env st intrack outdir).2.2).flatMap writeTargets,
      strStarts env.portable p = true := by
  intro p hp
  unfold ffmpeg_convert at hp
  by_cases hex : pathExists st (outtrackOf intrack outdir) = true
  · rw [if_pos hex] at hp
    rcases hmatch : get_track_stored_hash env st (outtrackOf intrack outdir)
      with ⟨res, cs⟩
    have hcs : cs = [Call.ffprobe (outtrackOf intrack outdir)] := by
      have := get_track_stored_hash_calls env st (outtrackOf intrack outdir)
      rw [hmatch] at this
      exact this
    rw [hmatch] at hp
    cases res with
    | error e =>
      simp only at hp
      rw [hcs] at hp
      simp [writeTargets] at hp
    | ok stored =>
      simp only at hp
      by_cases hm : stored = get_file_hash env intrack
      · rw [if_pos hm, hcs] at hp
        simp [writeTargets] at hp
      · rw [if_neg hm, hcs] at hp
        simp [writeTargets] at hp
  · rw [if_neg hex] at hp
    simp only [List.flatMap_cons, List.flatMap_nil, List.append_nil,
      writeTargets] at hp
    simp only [List.mem_singleton] at hp
    subst hp
    exact strStarts_pyJoin h1 hp1 (outtrack_head intrack)

theorem loop_targets (env : Env) (total : Nat) (hp1 : env.portable ≠ [])
    (hp2 : env.portable.getLast? ≠ some '/') :
    ∀ (l : List (Nat × Str)) (st : DState),
      (∀ iv ∈ l, ∃ c t2, iv.2 = c :: t2 ∧ c ≠ '/') →
      ∀ p ∈ ((convertLoop env total l st).calls).flatMap writeTargets,
        strStarts env.portable p = true := by
  intro l
  induction l with
  | nil => intro st _ p hp; simp [convertLoop] at hp
  | cons iv rest ih =>
    intro st hshape p hp
    obtain ⟨i, track⟩ := iv
    obtain ⟨c, t2, htr, hcne⟩ := hshape (i, track) (by simp)
    simp only at htr
    have hjoin : pyJoin env.portable track = env.portable ++ '/' :: track := by
      apply pyJoin_good ?_ hp1 hp2
      rw [htr]
      simp only [List.head?_cons, ne_eq, Option.some.injEq]
      exact hcne
    obtain ⟨z, hdz, hdlast⟩ := pyDirname_keeps track hp1 hp2
    have houtdir : strStarts env.portable (pyDirname (pyJoin env.portable track)) = true := by
      rw [hjoin, hdz]
      exact strStarts_append_of (strStarts_self env.portable) z
    simp only [convertLoop] at hp
    rcases hgate : ffmpeg_convert env
      { st with dirs := if pyDirname (pyJoin env.portable track) ∈ st.dirs
        then st.dirs else st.dirs ++ [pyDirname (pyJoin env.portable track)] }
      (pyJoin env.music track) (pyDirname (pyJoin env.portable track))
      with ⟨res, st2, cs⟩
    have hcst : ∀ q ∈ cs.flatMap writeTargets, strStarts env.portable q = true := by
      have := @gate_targets env
        { st with dirs := if pyDirname (pyJoin env.portable track) ∈ st.dirs
          then st.dirs else st.dirs ++ [pyDirname (pyJoin env.portable track)] }
        (pyJoin env.music track) (pyDirname (pyJoin env.portable track))
        houtdir hp1
      rw [hgate] at this
      exact this
    rw [hgate] at hp
    cases res with
    | error e =>
      simp only [List.flatMap_cons, writeTargets, List.mem_append] at hp
      rcases hp with hp | hp
      · simp only [List.mem_singleton] at hp
        subst hp
        exact houtdir
      · exact hcst p (by simpa using hp)
    | ok rc =>
      simp only at hp
      by_cases hrc : rc ≠ 0
      · rw [if_pos hrc] at hp
        simp only [List.flatMap_cons, writeTargets, List.mem_append] at hp
        rcases hp with hp | hp
        · simp only [List.mem_singleton] at hp
          subst hp
          exact houtdir
        · exact hcst p (by simpa using hp)
      · rw [if_neg hrc] at hp
        simp only [List.flatMap_cons, List.flatMap_append, writeTargets,
          List.mem_append, List.mem_singleton] at hp
        rcases hp with (hp | hp) | hp
        · subst hp
          exact houtdir
        · exact hcst p (by simpa using hp)
        · exact ih st2 (fun jv hjv => hshape jv (by simp [hjv])) p (by simpa using hp)

/-- C10: amended — provided the configured source root is an absolute path
without a trailing separator, the destination root is nonempty without a
trailing separator, and the tree's names are well formed, every write
target of the run (the per-file mirroring destinations, the created
directories and the transcoder output paths) lies at or under the
destination root.  The original unconditional claim fails when the source
root carries a trailing separator (see the counterexample). -/
theorem C10_theorem (env : Env) (tree : FTree) (st : DState)
    (hm1 : env.music.head? = some '/') (hm3 : env.music.getLast? ≠ some '/')
    (hp1 : env.portable ≠ []) (hp2 : env.portable.getLast? ≠ some '/')
    (hwf : wfT tree = true) :
    ∀ p ∈ ((cmd_generate_portable env tree st).calls).flatMap writeTargets,
      strStarts env.portable p = true := by
  intro p hp
  have htrackshape : ∀ iv ∈
      (pySort (classify env (walkTree env.excludeDirs env.music tree)).1).enum,
      ∃ c t2, iv.2 = c :: t2 ∧ c ≠ '/' := by
    intro iv hiv
    have hmem : iv.2 ∈
        pySort (classify env (walkTree env.excludeDirs env.music tree)).1 := by
      have hmm := List.enumFrom_map_snd 0
        (pySort (classify env (walkTree env.excludeDirs env.music tree)).1)
      rw [← hmm]
      exact List.mem_map_of_mem Prod.snd hiv
    exact scan_mem_shape env tree hm1 hm3 hwf iv.2
      (Or.inl ((pySort_perm _).mem_iff.mp hmem))
  by_cases hreg :
      (pySort (classify env (walkTree env.excludeDirs env.music tree)).2).length = 0
  · simp only [cmd_generate_portable, if_pos hreg] at hp
    simp only [List.nil_append] at hp
    exact loop_targets env _ hp1 hp2 _ st htrackshape p hp
  · simp only [cmd_generate_portable, if_neg hreg] at hp
    simp only [List.flatMap_append, List.flatMap_cons, List.flatMap_nil,
      List.append_nil, writeTargets, List.mem_append] at hp
    rcases hp with hp | hp
    · obtain ⟨rel, hrel, rfl⟩ := List.mem_map.mp hp
      obtain ⟨c, t2, rfl, hcne⟩ := scan_mem_shape env tree hm1 hm3 hwf rel
        (Or.inr ((pySort_perm _).mem_iff.mp hrel))
      rw [pyJoin_good (by
        simp only [List.head?_cons, ne_eq, Option.some.injEq]
        exact hcne) hp1 hp2]
      exact strStarts_append_of (strStarts_self env.portable) _
    · exact loop_targets env _ hp1 hp2 _ _ htrackshape p hp

/-- C10 (witness): on a concrete sane configuration every write target of
the run starts with the destination root. -/
theorem C10_witness :
    (envW.music.head? = some '/' ∧ envW.music.getLast? ≠ some '/' ∧
     envW.portable ≠ [] ∧ envW.portable.getLast? ≠ some '/' ∧
     wfT treeBoth = true) ∧
    ∀ p ∈ ((cmd_generate_portable envW treeBoth ⟨[], []⟩).calls).flatMap writeTargets,
      strStarts envW.portable p = true :=
  ⟨⟨by decide, by decide, by decide, by decide, by decide⟩,
    C10_theorem envW treeBoth ⟨[], []⟩ (by decide) (by decide) (by decide)
      (by decide) (by decide)⟩

/-- C10 (counterexample): with a source root carrying a trailing separator
(`/m/`), the root-stripping quirk leaves the track absolute, and the run's
transcoder output path `/m/b.ogg` lies under the source root and not under
the destination root `/p` — the run writes into the source tree. -/
theorem C10_counterexample :
    envSlash.music = str "/m/" ∧ envSlash.portable = str "/p" ∧
    str "/m/b.ogg" ∈
      ((cmd_generate_portable envSlash treeOnlyFlac ⟨[], []⟩).calls).flatMap
        writeTargets ∧
    strStarts envSlash.music (str "/m/b.ogg") = true ∧
    strStarts envSlash.portable (str "/m/b.ogg") = false := by
  refine ⟨rfl, rfl, by decide, by decide, by decide⟩

theorem lookupA_setA_self {β : Type} (l : List (Str × β)) (k : Str) (v : β) :
    lookupA (setA l k v) k = some v := by
  induction l with
  | nil => simp [setA, lookupA]
  | cons kv rest ih =>
    obtain ⟨k1, v1⟩ := kv
    simp only [setA]
    by_cases h : k1 = k
    · rw [if_pos h]
      simp [lookupA]
    · rw [if_neg h]
      simp only [lookupA]
      rw [if_neg h]
      exact ih

theorem lookupA_setA_ne {β : Type} (l : List (Str × β)) {k k1 : Str} (v : β)
    (h : k ≠ k1) : lookupA (setA l k v) k1 = lookupA l k1 := by
  induction l with
  | nil => simp [setA, lookupA, h]
  | cons kv rest ih =>
    obtain ⟨k2, v2⟩ := kv
    simp only [setA]
    by_cases h2 : k2 = k
    · rw [if_pos h2]
      simp only [lookupA]
      rw [if_neg h, if_neg (by rw [h2]; exact h)]
    · rw [if_neg h2]
      simp only [lookupA]
      by_cases h3 : k2 = k1
      · rw [if_pos h3, if_pos h3]
      · rw [if_neg h3, if_neg h3]
        exact ih

theorem setA_same {β : Type} {l : List (Str × β)} {k : Str} {v : β}
    (h : lookupA l k = some v) : setA l k v = l := by
  induction l with
  | nil => simp [lookupA] at h
  | cons kv rest ih =>
    obtain ⟨k1, v1⟩ := kv
    simp only [lookupA] at h
    simp only [setA]
    by_cases h1 : k1 = k
    · rw [if_pos h1]
      rw [if_pos h1] at h
      injection h with h2
      rw [h1, h2]
    · rw [if_neg h1]
      rw [if_neg h1] at h
      rw [ih h]

theorem pathExists_false_lookup {st : DState} {o : Str}
    (hex : pathExists st o = false) : lookupA st.files o = none := by
  unfold pathExists at hex
  cases hl : lookupA st.files o with
  | none => rfl
  | some bs => rw [hl] at hex; simp at hex

theorem ffmpeg_convert_produce {env : Env} {st : DState} {intrack outdir : Str}
    (hex : pathExists st (outtrackOf intrack outdir) = false) :
    ffmpeg_convert env st intrack outdir =
      (.ok 0,
       { st with
         files := setA st.files (outtrackOf intrack outdir)
           (env.transcodeFn (env.readFile intrack) (get_file_hash env intrack)) },
       [Call.ffmpeg intrack (outtrackOf intrack outdir)]) := by
  simp only [ffmpeg_convert, runFfmpeg, hex, Bool.false_eq_true, if_false]

theorem get_track_stored_hash_ok_inv {env : Env} {st : DState} {o stored : Str}
    (h : (get_track_stored_hash env st o).1 = .ok stored) :
    ∃ bs, lookupA st.files o = some bs ∧ (env.probeFn bs).1 = 0 ∧
      pyStrip (env.probeFn bs).2 = stored ∧ stored ≠ [] := by
  unfold get_track_stored_hash probeSt at h
  cases hbs : lookupA st.files o with
  | none => rw [hbs] at h; simp at h
  | some bs =>
    rw [hbs] at h
    by_cases hrc : (env.probeFn bs).1 ≠ 0
    · rw [if_pos hrc] at h
      simp at h
    · rw [if_neg hrc] at h
      push_neg at hrc
      by_cases hret : pyStrip (env.probeFn bs).2 = []
      · rw [if_pos hret] at h
        simp at h
      · rw [if_neg hret] at h
        simp only at h
        injection h with h2
        exact ⟨bs, rfl, hrc, h2, h2 ▸ hret⟩

theorem ffmpeg_convert_mono {env : Env} {st : DState} {intrack outdir : Str}
    {res : Except Failure Nat} {st2 : DState} {cs : List Call}
    (h : ffmpeg_convert env st intrack outdir = (res, st2, cs)) :
    (∀ k v, lookupA st.files k = some v → lookupA st2.files k = some v) ∧
    st2.dirs = st.dirs := by
  by_cases hex : pathExists st (outtrackOf intrack outdir) = true
  · unfold ffmpeg_convert at h
    rw [if_pos hex] at h
    rcases hget : get_track_stored_hash env st (outtrackOf intrack outdir)
      with ⟨gres, gcs⟩
    rw [hget] at h
    cases gres with
    | error e =>
      simp only at h
      injection h with h1 hb
      injection hb with hb1 hb2
      subst hb1
      exact ⟨fun k v hv => hv, rfl⟩
    | ok stored =>
      simp only at h
      by_cases hm : stored = get_file_hash env intrack
      · rw [if_pos hm] at h
        injection h with h1 hb
        injection hb with hb1 hb2
        subst hb1
        exact ⟨fun k v hv => hv, rfl⟩
      · rw [if_neg hm] at h
        injection h with h1 hb
        injection hb with hb1 hb2
        subst hb1
        exact ⟨fun k v hv => hv, rfl⟩
  · have hexf : pathExists st (outtrackOf intrack outdir) = false := by
      revert hex
      cases pathExists st (outtrackOf intrack outdir) <;> simp
    rw [ffmpeg_convert_produce hexf] at h
    injection h with h1 hb
    injection hb with hb1 hb2
    subst hb1
    constructor
    · intro k v hv
      have hko : outtrackOf intrack outdir ≠ k := by
        intro heq
        rw [heq] at hexf
        rw [pathExists_false_lookup hexf] at hv
        exact Option.noConfusion hv
      show lookupA (setA st.files (outtrackOf intrack outdir) _) k = some v
      rw [lookupA_setA_ne _ _ hko]
      exact hv
    · rfl

theorem hexDigit_not_space (k : Nat) : isPySpace (hexDigit (k % 16)) = false := by
  have h : k % 16 < 16 := Nat.mod_lt _ (by norm_num)
  generalize k % 16 = m at h
  interval_cases m <;> rfl

theorem hexdigest_no_space {raw : List Nat} :
    ∀ c ∈ hexdigest raw, isPySpace c = false := by
  intro c hc
  unfold hexdigest at hc
  rw [List.mem_flatMap] at hc
  obtain ⟨b, _, hcb⟩ := hc
  unfold hexPair at hcb
  simp only [List.mem_cons, List.mem_singleton, List.not_mem_nil, or_false] at hcb
  rcases hcb with h1 | h1
  · subst h1; exact hexDigit_not_space (b / 16)
  · subst h1; exact hexDigit_not_space b

theorem dropWhile_eq_self_of_all {p : Char → Bool} {s : Str}
    (h : ∀ c ∈ s, p c = false) : s.dropWhile p = s := by
  cases s with
  | nil => rfl
  | cons c t => exact List.dropWhile_cons_of_neg (by simp [h c (by simp)])

theorem pyStrip_of_no_space {s : Str} (h : ∀ c ∈ s, isPySpace c = false) :
    pyStrip s = s := by
  unfold pyStrip
  rw [dropWhile_eq_self_of_all h,
    dropWhile_eq_self_of_all (fun c hc => h c (List.mem_reverse.mp hc)),
    List.reverse_reverse]

theorem pyStrip_hexdigest (raw : List Nat) :
    pyStrip (hexdigest raw) = hexdigest raw :=
  pyStrip_of_no_space fun c hc => hexdigest_no_space c hc

theorem hexdigest_ne_nil {raw : List Nat} (h : raw ≠ []) : hexdigest raw ≠ [] := by
  cases raw with
  | nil => exact absurd rfl h
  | cons b rest => simp [hexdigest, hexPair]

theorem get_file_hash_eq (env : Env) (f : Str) :
    get_file_hash env f = hexdigest (env.rawDigest (env.readFile f)) :=
  get_file_hash_with_eq env HASHER_CHUNK_SIZE f (by norm_num [HASHER_CHUNK_SIZE])

theorem pyStrip_get_file_hash (env : Env) (f : Str) :
    pyStrip (get_file_hash env f) = get_file_hash env f := by
  rw [get_file_hash_eq]
  exact pyStrip_hexdigest _

theorem get_file_hash_ne_nil {env : Env} (hdn : DigestNonempty env) (f : Str) :
    get_file_hash env f ≠ [] := by
  rw [get_file_hash_eq]
  exact hexdigest_ne_nil (hdn _)

theorem convertLoop_mono (env : Env) (total : Nat) :
    ∀ (l : List (Nat × Str)) (st : DState),
      (∀ k v, lookupA st.files k = some v →
        lookupA (convertLoop env total l st).st.files k = some v) ∧
      (∀ d ∈ st.dirs, d ∈ (convertLoop env total l st).st.dirs) := by
  intro l
  induction l with
  | nil => intro st; exact ⟨fun _ _ hv => hv, fun _ hd => hd⟩
  | cons jv rest ih =>
    intro st
    obtain ⟨i, track⟩ := jv
    have hdirs1 : ∀ d ∈ st.dirs,
        d ∈ (if pyDirname (pyJoin env.portable track) ∈ st.dirs then st.dirs
             else st.dirs ++ [pyDirname (pyJoin env.portable track)]) := by
      intro d hd
      by_cases hc : pyDirname (pyJoin env.portable track) ∈ st.dirs
      · rw [if_pos hc]; exact hd
      · rw [if_neg hc]; exact List.mem_append_left _ hd
    rcases hgate : ffmpeg_convert env
      { st with dirs := if pyDirname (pyJoin env.portable track) ∈ st.dirs
        then st.dirs else st.dirs ++ [pyDirname (pyJoin env.portable track)] }
      (pyJoin env.music track) (pyDirname (pyJoin env.portable track))
      with ⟨res, st2, cs⟩
    obtain ⟨hk, hd2⟩ := ffmpeg_convert_mono hgate
    simp only [convertLoop, hgate]
    cases res with
    | error e =>
      exact ⟨hk, fun d hd => by rw [hd2]; exact hdirs1 d hd⟩
    | ok rc =>
      simp only
      by_cases hrc : rc ≠ 0
      · rw [if_pos hrc]
        exact ⟨hk, fun d hd => by rw [hd2]; exact hdirs1 d hd⟩
      · rw [if_neg hrc]
        obtain ⟨hk2, hd3⟩ := ih st2
        constructor
        · exact fun k v hv => hk2 k v (hk k v hv)
        · exact fun d hd => hd3 d (by rw [hd2]; exact hdirs1 d hd)

theorem convertLoop_post (env : Env) (total : Nat)
    (hrt : ProbeRoundTrip env) (hdn : DigestNonempty env) :
    ∀ (l : List (Nat × Str)) (st : DState),
      (convertLoop env total l st).err = none →
      ∀ iv ∈ l, GateCurrent env (convertLoop env total l st).st iv.2 ∧
        pyDirname (pyJoin env.portable iv.2) ∈ (convertLoop env total l st).st.dirs := by
  intro l
  induction l with
  | nil => intro st _ iv hiv; simp at hiv
  | cons jv rest ih =>
    intro st herr iv hiv
    obtain ⟨i, track⟩ := jv
    rcases hgate : ffmpeg_convert env
      { st with dirs := if pyDirname (pyJoin env.portable track) ∈ st.dirs
        then st.dirs else st.dirs ++ [pyDirname (pyJoin env.portable track)] }
      (pyJoin env.music track) (pyDirname (pyJoin env.portable track))
      with ⟨res, st2, cs⟩
    cases res with
    | error e =>
      exfalso
      simp only [convertLoop, hgate] at herr
      exact Option.noConfusion herr
    | ok rc =>
      by_cases hrc : rc ≠ 0
      · exfalso
        simp only [convertLoop, hgate, if_pos hrc] at herr
        exact Option.noConfusion herr
      · have hloopeq : convertLoop env total ((i, track) :: rest) st =
            ⟨(convertLoop env total rest st2).st, (convertLoop env total rest st2).err,
             Call.mkdir (pyDirname (pyJoin env.portable track)) :: cs ++
               (convertLoop env total rest st2).calls,
             (i + 1, total, track) :: (convertLoop env total rest st2).logs⟩ := by
          simp only [convertLoop, hgate, if_neg hrc]
        rw [hloopeq] at herr ⊢
        simp only at herr ⊢
        obtain ⟨hk, hd2⟩ := ffmpeg_convert_mono hgate
        rcases List.mem_cons.mp hiv with heq | hiv2
        · have hdir : pyDirname (pyJoin env.portable track) ∈ st2.dirs := by
            rw [hd2]
            by_cases hc : pyDirname (pyJoin env.portable track) ∈ st.dirs
            · simp only [if_pos hc]; exact hc
            · simp only [if_neg hc]; exact List.mem_append_right _ (by simp)
          have hhead : GateCurrent env st2 track := by
            by_cases hex : pathExists
                { st with dirs := if pyDirname (pyJoin env.portable track) ∈ st.dirs
                  then st.dirs else st.dirs ++ [pyDirname (pyJoin env.portable track)] }
                (outtrackOf (pyJoin env.music track)
                  (pyDirname (pyJoin env.portable track))) = true
            · unfold ffmpeg_convert at hgate
              rw [if_pos hex] at hgate
              rcases hget : get_track_stored_hash env
                { st with dirs := if pyDirname (pyJoin env.portable track) ∈ st.dirs
                  then st.dirs else st.dirs ++ [pyDirname (pyJoin env.portable track)] }
                (outtrackOf (pyJoin env.music track)
                  (pyDirname (pyJoin env.portable track)))
                with ⟨gres, gcs⟩
              rw [hget] at hgate
              cases gres with
              | error e2 =>
                simp only at hgate
                injection hgate with ha _
                exact Except.noConfusion ha
              | ok stored =>
                simp only at hgate
                by_cases hm : stored = get_file_hash env (pyJoin env.music track)
                · rw [if_pos hm] at hgate
                  injection hgate with ha hb
                  injection hb with hb1 hb2
                  obtain ⟨bs, hbs, hrc0, hstrip, hne⟩ :=
                    get_track_stored_hash_ok_inv (by rw [hget])
                  refine ⟨bs, ?_, hrc0, ?_, ?_⟩
                  · rw [← hb1]; exact hbs
                  · rw [hstrip, hm]
                  · rw [hstrip]; exact hm ▸ hne
                · rw [if_neg hm] at hgate
                  injection hgate with ha _
                  exact Except.noConfusion ha
            · have hexf : pathExists
                  { st with dirs := if pyDirname (pyJoin env.portable track) ∈ st.dirs
                    then st.dirs else st.dirs ++ [pyDirname (pyJoin env.portable track)] }
                  (outtrackOf (pyJoin env.music track)
                    (pyDirname (pyJoin env.portable track))) = false := by
                revert hex
                cases pathExists
                  { st with dirs := if pyDirname (pyJoin env.portable track) ∈ st.dirs
                    then st.dirs else st.dirs ++ [pyDirname (pyJoin env.portable track)] }
                  (outtrackOf (pyJoin env.music track)
                    (pyDirname (pyJoin env.portable track))) <;> simp
              rw [ffmpeg_convert_produce hexf] at hgate
              injection hgate with ha hb
              injection hb with hb1 hb2
              refine ⟨env.transcodeFn (env.readFile (pyJoin env.music track))
                (get_file_hash env (pyJoin env.music track)), ?_, ?_, ?_, ?_⟩
              · rw [← hb1]
                exact lookupA_setA_self _ _ _
              · rw [hrt]
              · rw [hrt]
                exact pyStrip_get_file_hash env _
              · rw [hrt]
                simp only
                rw [pyStrip_get_file_hash env _]
                exact get_file_hash_ne_nil hdn _
          obtain ⟨hk2, hd3⟩ := convertLoop_mono env total rest st2
          obtain ⟨bs, hbs, h1, h2, h3⟩ := hhead
          rw [heq] at hiv ⊢
          simp only
          exact ⟨⟨bs, hk2 _ _ hbs, h1, h2, h3⟩, hd3 _ hdir⟩
        · exact ih st2 herr iv hiv2

theorem convertLoop_skip (env : Env) (total : Nat) :
    ∀ (l : List (Nat × Str)) (st : DState),
      (∀ iv ∈ l, GateCurrent env st iv.2 ∧
        pyDirname (pyJoin env.portable iv.2) ∈ st.dirs) →
      (convertLoop env total l st).st = st ∧
      (convertLoop env total l st).err = none ∧
      ∀ c ∈ (convertLoop env total l st).calls, isTranscodeCall c = false := by
  intro l
  induction l with
  | nil =>
    intro st _
    exact ⟨rfl, rfl, by intro c hc; simp [convertLoop] at hc⟩
  | cons jv rest ih =>
    intro st hcur
    obtain ⟨i, track⟩ := jv
    obtain ⟨⟨bs, hbs, hrc0, hstrip, hne⟩, hdir⟩ := hcur (i, track) (by simp)
    have hst1 : ({ st with dirs := if pyDirname (pyJoin env.portable track) ∈ st.dirs
        then st.dirs else st.dirs ++ [pyDirname (pyJoin env.portable track)] } : DState)
        = st := by
      rw [if_pos hdir]
    rcases hpf : env.probeFn bs with ⟨rc1, out⟩
    rw [hpf] at hrc0 hstrip hne
    simp only at hrc0 hstrip hne
    subst hrc0
    have hgate := ffmpeg_convert_skip hbs hpf hne hstrip
    have hloopeq : convertLoop env total ((i, track) :: rest) st =
        ⟨(convertLoop env total rest st).st, (convertLoop env total rest st).err,
         Call.mkdir (pyDirname (pyJoin env.portable track)) ::
           [Call.ffprobe (outtrackOf (pyJoin env.music track)
             (pyDirname (pyJoin env.portable track)))] ++
           (convertLoop env total rest st).calls,
         (i + 1, total, track) :: (convertLoop env total rest st).logs⟩ := by
      simp only [convertLoop, hst1, hgate]
      simp
    rw [hloopeq]
    obtain ⟨h1, h2, h3⟩ := ih st (fun iv hiv => hcur iv (by simp [hiv]))
    refine ⟨h1, h2, ?_⟩
    intro c hc
    simp only [List.cons_append, List.mem_cons, List.mem_append,
      List.mem_singleton, List.not_mem_nil, false_or, or_false] at hc
    rcases hc with rfl | rfl | hc
    · rfl
    · rfl
    · exact h3 c hc

theorem pyJoin_inj {a b1 b2 : Str} (h1 : b1.head? ≠ some '/')
    (h2 : b2.head? ≠ some '/') (h : pyJoin a b1 = pyJoin a b2) : b1 = b2 := by
  unfold pyJoin at h
  rw [if_neg h1, if_neg h2] at h
  by_cases ha : a = []
  · rwa [if_pos ha, if_pos ha] at h
  · rw [if_neg ha, if_neg ha] at h
    by_cases hl : a.getLast? = some '/'
    · rw [if_pos hl, if_pos hl] at h
      exact List.append_cancel_left h
    · rw [if_neg hl, if_neg hl] at h
      have h4 := List.append_cancel_left h
      simpa using h4

theorem foldl_setA_nokey (key : Str → Str) (val : Str → List Nat) :
    ∀ (rels : List Str) (init : List (Str × List Nat)) (k : Str),
      (∀ r ∈ rels, key r ≠ k) →
      lookupA (rels.foldl (fun fs rel => setA fs (key rel) (val rel)) init) k =
        lookupA init k := by
  intro rels
  induction rels with
  | nil => intro init k _; rfl
  | cons r rest ih =>
    intro init k hk
    rw [List.foldl_cons,
      ih (setA init (key r) (val r)) k
        (fun r2 hr2 => hk r2 (List.mem_cons_of_mem r hr2))]
    exact lookupA_setA_ne init (val r) (hk r (List.mem_cons_self r rest))

theorem foldl_setA_lookup (key : Str → Str) (val : Str → List Nat) :
    ∀ (rels : List Str),
      (∀ r1 ∈ rels, ∀ r2 ∈ rels, key r1 = key r2 → r1 = r2) →
      ∀ (init : List (Str × List Nat)), ∀ rel ∈ rels,
        lookupA (rels.foldl (fun fs rel => setA fs (key rel) (val rel)) init)
          (key rel) = some (val rel) := by
  intro rels
  induction rels with
  | nil => intro _ init rel hrel; exact absurd hrel (List.not_mem_nil rel)
  | cons r rest ih =>
    intro hinj init rel hrel
    rw [List.foldl_cons]
    rcases List.mem_cons.mp hrel with rfl | hrel2
    · by_cases hmem : rel ∈ rest
      · exact ih
          (fun r1 hr1 r2 hr2 he =>
            hinj r1 (List.mem_cons_of_mem rel hr1) r2
              (List.mem_cons_of_mem rel hr2) he)
          (setA init (key rel) (val rel)) rel hmem
      · rw [foldl_setA_nokey key val rest (setA init (key rel) (val rel))
          (key rel)
          (fun r2 hr2 he =>
            hmem ((hinj r2 (List.mem_cons_of_mem rel hr2) rel
              (List.mem_cons_self rel rest) he) ▸ hr2))]
        exact lookupA_setA_self init (key rel) (val rel)
    · exact ih
        (fun r1 hr1 r2 hr2 he =>
          hinj r1 (List.mem_cons_of_mem r hr1) r2
            (List.mem_cons_of_mem r hr2) he)
        (setA init (key r) (val r)) rel hrel2

theorem foldl_setA_noop (key : Str → Str) (val : Str → List Nat) :
    ∀ (rels : List Str) (l : List (Str × List Nat)),
      (∀ rel ∈ rels, lookupA l (key rel) = some (val rel)) →
      rels.foldl (fun fs rel => setA fs (key rel) (val rel)) l = l := by
  intro rels
  induction rels with
  | nil => intro l _; rfl
  | cons r rest ih =>
    intro l h
    rw [List.foldl_cons, setA_same (h r (List.mem_cons_self r rest))]
    exact ih l (fun rel hrel => h rel (List.mem_cons_of_mem r hrel))

theorem applyRsync_lookup (env : Env) (st : DState) (rels : List Str)
    (hinj : ∀ r1 ∈ rels, ∀ r2 ∈ rels,
      pyJoin env.portable r1 = pyJoin env.portable r2 → r1 = r2) :
    ∀ rel ∈ rels,
      lookupA (applyRsync env st rels).files (pyJoin env.portable rel) =
        some (env.readFile (pyJoin env.music rel)) := by
  intro rel hrel
  exact foldl_setA_lookup (fun q => pyJoin env.portable q)
    (fun q => env.readFile (pyJoin env.music q)) rels hinj st.files rel hrel

theorem applyRsync_noop (env : Env) (st : DState) (rels : List Str)
    (h : ∀ rel ∈ rels, lookupA st.files (pyJoin env.portable rel) =
      some (env.readFile (pyJoin env.music rel))) :
    applyRsync env st rels = st := by
  have hf : rels.foldl
      (fun fs rel => setA fs (pyJoin env.portable rel)
        (env.readFile (pyJoin env.music rel))) st.files = st.files :=
    foldl_setA_noop (fun q => pyJoin env.portable q)
      (fun q => env.readFile (pyJoin env.music q)) rels st.files h
  show ({ st with
    files := rels.foldl
      (fun fs rel => setA fs (pyJoin env.portable rel)
        (env.readFile (pyJoin env.music rel))) st.files } : DState) = st
  rw [hf]

theorem cmd_empty_eq (env : Env) (tree : FTree) (st : DState)
    (hreg : (pySort (classify env (walkTree env.excludeDirs env.music tree)).2).length = 0) :
    cmd_generate_portable env tree st =
      convertLoop env
        (pySort (classify env (walkTree env.excludeDirs env.music tree)).1).length
        (pySort (classify env (walkTree env.excludeDirs env.music tree)).1).enum st := by
  simp only [cmd_generate_portable]
  rw [if_pos hreg]
  simp

theorem cmd_nonempty_eq (env : Env) (tree : FTree) (st : DState)
    (hreg : ¬ (pySort (classify env (walkTree env.excludeDirs env.music tree)).2).length = 0) :
    cmd_generate_portable env tree st =
      ⟨(convertLoop env
          (pySort (classify env (walkTree env.excludeDirs env.music tree)).1).length
          (pySort (classify env (walkTree env.excludeDirs env.music tree)).1).enum
          (applyRsync env st
            (pySort (classify env (walkTree env.excludeDirs env.music tree)).2))).st,
        (convertLoop env
          (pySort (classify env (walkTree env.excludeDirs env.music tree)).1).length
          (pySort (classify env (walkTree env.excludeDirs env.music tree)).1).enum
          (applyRsync env st
            (pySort (classify env (walkTree env.excludeDirs env.music tree)).2))).err,
        Call.rsync (pySort (classify env (walkTree env.excludeDirs env.music tree)).2)
            env.portable ::
          (convertLoop env
            (pySort (classify env (walkTree env.excludeDirs env.music tree)).1).length
            (pySort (classify env (walkTree env.excludeDirs env.music tree)).1).enum
            (applyRsync env st
              (pySort (classify env (walkTree env.excludeDirs env.music tree)).2))).calls,
        (convertLoop env
          (pySort (classify env (walkTree env.excludeDirs env.music tree)).1).length
          (pySort (classify env (walkTree env.excludeDirs env.music tree)).1).enum
          (applyRsync env st
            (pySort (classify env (walkTree env.excludeDirs env.music tree)).2))).logs⟩ := by
  simp only [cmd_generate_portable]
  rw [if_neg hreg]
  simp

/-- C4: idempotence of `cmd_generate_portable`.  Assuming the external
contracts (probing a transcoded artifact returns its embedded metadata
value with exit 0; digests are nonempty), an absolute source root without a
trailing separator and a well-formed source tree, if a first run succeeds
then a second run over the unchanged sources leaves the destination state
byte-identical to the state after the first run, itself succeeds, and
performs zero external transcoder invocations. -/
theorem C4_theorem (env : Env) (tree : FTree) (st0 : DState)
    (hrt : ProbeRoundTrip env) (hdn : DigestNonempty env)
    (hm1 : env.music.head? = some '/') (hm3 : env.music.getLast? ≠ some '/')
    (hwf : wfT tree = true)
    (h1 : (cmd_generate_portable env tree st0).err = none) :
    (cmd_generate_portable env tree (cmd_generate_portable env tree st0).st).st =
      (cmd_generate_portable env tree st0).st ∧
    (cmd_generate_portable env tree (cmd_generate_portable env tree st0).st).err = none ∧
    ∀ c ∈ (cmd_generate_portable env tree
        (cmd_generate_portable env tree st0).st).calls,
      isTranscodeCall c = false := by
  by_cases hreg :
    (pySort (classify env (walkTree env.excludeDirs env.music tree)).2).length = 0
  · rw [cmd_empty_eq env tree st0 hreg] at h1
    have hpost := convertLoop_post env
      (pySort (classify env (walkTree env.excludeDirs env.music tree)).1).length
      hrt hdn
      (pySort (classify env (walkTree env.excludeDirs env.music tree)).1).enum
      st0 h1
    rw [cmd_empty_eq env tree st0 hreg,
      cmd_empty_eq env tree
        (convertLoop env
          (pySort (classify env (walkTree env.excludeDirs env.music tree)).1).length
          (pySort (classify env (walkTree env.excludeDirs env.music tree)).1).enum
          st0).st hreg]
    exact convertLoop_skip env
      (pySort (classify env (walkTree env.excludeDirs env.music tree)).1).length
      (pySort (classify env (walkTree env.excludeDirs env.music tree)).1).enum
      (convertLoop env
        (pySort (classify env (walkTree env.excludeDirs env.music tree)).1).length
        (pySort (classify env (walkTree env.excludeDirs env.music tree)).1).enum
        st0).st hpost
  · have he1 := cmd_nonempty_eq env tree st0 hreg
    have h1' : (convertLoop env
        (pySort (classify env (walkTree env.excludeDirs env.music tree)).1).length
        (pySort (classify env (walkTree env.excludeDirs env.music tree)).1).enum
        (applyRsync env st0
          (pySort (classify env (walkTree env.excludeDirs env.music tree)).2))).err =
        none := by
      rw [he1] at h1
      exact h1
    have hRshape : ∀ rel ∈ pySort (classify env (walkTree env.excludeDirs env.music tree)).2,
        rel.head? ≠ some '/' := by
      intro rel hrel
      obtain ⟨c, t2, heq, hcne⟩ := scan_mem_shape env tree hm1 hm3 hwf rel
        (Or.inr ((pySort_perm _).mem_iff.mp hrel))
      rw [heq]
      simp only [List.head?_cons, ne_eq, Option.some.injEq]
      exact hcne
    have hF2a := applyRsync_lookup env st0
      (pySort (classify env (walkTree env.excludeDirs env.music tree)).2)
      (fun r1 hr1 r2 hr2 he => pyJoin_inj (hRshape r1 hr1) (hRshape r2 hr2) he)
    have hmono := convertLoop_mono env
      (pySort (classify env (walkTree env.excludeDirs env.music tree)).1).length
      (pySort (classify env (walkTree env.excludeDirs env.music tree)).1).enum
      (applyRsync env st0
        (pySort (classify env (walkTree env.excludeDirs env.music tree)).2))
    have hF2 : ∀ rel ∈ pySort (classify env (walkTree env.excludeDirs env.music tree)).2,
        lookupA (convertLoop env
          (pySort (classify env (walkTree env.excludeDirs env.music tree)).1).length
          (pySort (classify env (walkTree env.excludeDirs env.music tree)).1).enum
          (applyRsync env st0
            (pySort (classify env (walkTree env.excludeDirs env.music tree)).2))).st.files
          (pyJoin env.portable rel) =
          some (env.readFile (pyJoin env.music rel)) :=
      fun rel hrel => hmono.1 (pyJoin env.portable rel) _ (hF2a rel hrel)
    have hpost := convertLoop_post env
      (pySort (classify env (walkTree env.excludeDirs env.music tree)).1).length
      hrt hdn
      (pySort (classify env (walkTree env.excludeDirs env.music tree)).1).enum
      (applyRsync env st0
        (pySort (classify env (walkTree env.excludeDirs env.music tree)).2)) h1'
    have hnoop := applyRsync_noop env
      (convertLoop env
        (pySort (classify env (walkTree env.excludeDirs env.music tree)).1).length
        (pySort (classify env (walkTree env.excludeDirs env.music tree)).1).enum
        (applyRsync env st0
          (pySort (classify env (walkTree env.excludeDirs env.music tree)).2))).st
      (pySort (classify env (walkTree env.excludeDirs env.music tree)).2) hF2
    have hs1 : (cmd_generate_portable env tree st0).st =
        (convertLoop env
          (pySort (classify env (walkTree env.excludeDirs env.music tree)).1).length
          (pySort (classify env (walkTree env.excludeDirs env.music tree)).1).enum
          (applyRsync env st0
            (pySort (classify env (walkTree env.excludeDirs env.music tree)).2))).st := by
      rw [he1]
    have he2 := cmd_nonempty_eq env tree
      (convertLoop env
        (pySort (classify env (walkTree env.excludeDirs env.music tree)).1).length
        (pySort (classify env (walkTree env.excludeDirs env.music tree)).1).enum
        (applyRsync env st0
          (pySort (classify env (walkTree env.excludeDirs env.music tree)).2))).st hreg
    rw [hnoop] at he2
    have hskip := convertLoop_skip env
      (pySort (classify env (walkTree env.excludeDirs env.music tree)).1).length
      (pySort (classify env (walkTree env.excludeDirs env.music tree)).1).enum
      (convertLoop env
        (pySort (classify env (walkTree env.excludeDirs env.music tree)).1).length
        (pySort (classify env (walkTree env.excludeDirs env.music tree)).1).enum
        (applyRsync env st0
          (pySort (classify env (walkTree env.excludeDirs env.music tree)).2))).st hpost
    rw [hs1, he2]
    refine ⟨hskip.1, hskip.2.1, ?_⟩
    intro c hc
    have hc' : c ∈ Call.rsync
        (pySort (classify env (walkTree env.excludeDirs env.music tree)).2)
        env.portable ::
      (convertLoop env
        (pySort (classify env (walkTree env.excludeDirs env.music tree)).1).length
        (pySort (classify env (walkTree env.excludeDirs env.music tree)).1).enum
        (convertLoop env
          (pySort (classify env (walkTree env.excludeDirs env.music tree)).1).length
          (pySort (classify env (walkTree env.excludeDirs env.music tree)).1).enum
          (applyRsync env st0
            (pySort (classify env (walkTree env.excludeDirs env.music tree)).2))).st).calls := hc
    rcases List.mem_cons.mp hc' with hc0 | hc2
    · rw [hc0]
      rfl
    · exact hskip.2.2 c hc2

/-- C4 (witness): under `envW` with the two-file tree and an empty initial
destination, the first run succeeds, and the second run leaves the
destination state unchanged, succeeds, and invokes no transcoder. -/
theorem C4_witness :
    ProbeRoundTrip envW ∧ DigestNonempty envW ∧
    envW.music.head? = some '/' ∧ envW.music.getLast? ≠ some '/' ∧
    wfT treeBoth = true ∧
    (cmd_generate_portable envW treeBoth ⟨[], []⟩).err = none ∧
    ((cmd_generate_portable envW treeBoth
        (cmd_generate_portable envW treeBoth ⟨[], []⟩).st).st =
      (cmd_generate_portable envW treeBoth ⟨[], []⟩).st ∧
     (cmd_generate_portable envW treeBoth
        (cmd_generate_portable envW treeBoth ⟨[], []⟩).st).err = none ∧
     ∀ c ∈ (cmd_generate_portable envW treeBoth
        (cmd_generate_portable envW treeBoth ⟨[], []⟩).st).calls,
       isTranscodeCall c = false) := by
  have hrt : ProbeRoundTrip envW := by
    intro bs t
    show (0, (t.map Char.toNat).map Char.ofNat) = (0, t)
    rw [List.map_map]
    have hco : (Char.ofNat ∘ Char.toNat) = id := funext fun c => Char.ofNat_toNat c
    rw [hco, List.map_id]
  have hdn : DigestNonempty envW := fun bs => List.cons_ne_nil bs.length []
  exact ⟨hrt, hdn, by decide, by decide, by decide, by decide,
    C4_theorem envW treeBoth ⟨[], []⟩ hrt hdn (by decide) (by decide)
      (by decide) (by decide)⟩

end Musctl
